import Mathlib

/-!
# Verification of the Soma-cube SAT encoding pipeline

A shallow embedding of the core pipeline of `soma_sat_solver.py`:
geometry kernel (axis rotations), orientation generator
(`generate_rotations`), placement enumerator (`generate_placements`),
and the exact-cover CNF encoder (`exactly_one`, `generate_sat_instance`).

Cells are integer triples.  Python's ordered `dict` / `defaultdict(set)`
are modelled as insertion-ordered association lists, and `set.add` as an
append-if-absent update, which preserves the deterministic iteration
order the source relies on.  The `var_names` side table of the source is
not modelled: it is documentation-only metadata that no claim concerns.
-/

namespace Soma

/-- A cell: an integer triple `(x, y, z)`. -/
abbrev Cell := ℤ × ℤ × ℤ

/-- `rotate_x = lambda cubelets: [(x, z, -y) for (x, y, z) in cubelets]`. -/
def rotate_x (cubelets : List Cell) : List Cell :=
  cubelets.map (fun c => (c.1, c.2.2, -c.2.1))

/-- `rotate_y = lambda cubelets: [(z, y, -x) for (x, y, z) in cubelets]`. -/
def rotate_y (cubelets : List Cell) : List Cell :=
  cubelets.map (fun c => (c.2.2, c.2.1, -c.1))

/-- `rotate_z = lambda cubelets: [(-y, x, z) for (x, y, z) in cubelets]`. -/
def rotate_z (cubelets : List Cell) : List Cell :=
  cubelets.map (fun c => (-c.2.1, c.1, c.2.2))

/-- `identity = lambda cubelets: cubelets`. -/
def identity (cubelets : List Cell) : List Cell := cubelets

/-- Lexicographic comparison of cells, Python tuple `<=`-style (Boolean). -/
def cellLe (a b : Cell) : Bool :=
  decide (a.1 < b.1) ||
    (decide (a.1 = b.1) &&
      (decide (a.2.1 < b.2.1) ||
        (decide (a.2.1 = b.2.1) && decide (a.2.2 ≤ b.2.2))))

/-- Insert a cell into a (lexicographically) sorted list of cells. -/
def insertCell (c : Cell) : List Cell → List Cell
  | [] => [c]
  | d :: l => if cellLe c d then c :: d :: l else d :: insertCell c l

/-- Insertion sort on cells: Python's `sorted` (all inputs have distinct
cells, so stability is irrelevant and the sorted list is unique). -/
def sortCells : List Cell → List Cell
  | [] => []
  | c :: l => insertCell c (sortCells l)

/-- The canonicalization inside `generate_rotations`: sort, then read off
`min_x, min_y, min_z = rot_piece_sorted[0]` (the first *sorted* cell, not
the componentwise minima) and translate every cell by its components.
The `[]` case is unreachable for the (nonempty) pieces; Python would
raise an `IndexError` there. -/
def canon (l : List Cell) : List Cell :=
  match sortCells l with
  | [] => []
  | m :: rest =>
      (m :: rest).map (fun c => (c.1 - m.1, c.2.1 - m.2.1, c.2.2 - m.2.2))

/-- The four candidate transforms `[identity, rotate_x, rotate_y, rotate_z]`. -/
def transforms : List (List Cell → List Cell) :=
  [identity, rotate_x, rotate_y, rotate_z]

/-- The canonicalized results of all `4^5 = 1024` five-fold transform
compositions `f_a(f_b(f_c(f_d(f_e(piece)))))`, in loop order. -/
def seqResults (piece : List Cell) : List (List Cell) :=
  transforms.flatMap fun f_a =>
    transforms.flatMap fun f_b =>
      transforms.flatMap fun f_c =>
        transforms.flatMap fun f_d =>
          transforms.map fun f_e =>
            canon (f_a (f_b (f_c (f_d (f_e piece)))))

/-- `if t not in acc: acc.append(t)` — append-if-absent. -/
def addIfNew {α : Type} [DecidableEq α] (acc : List α) (t : α) : List α :=
  if t ∈ acc then acc else acc ++ [t]

/-- `generate_rotations`: collect the canonical forms of all 1024
compositions, deduplicating in first-discovery order. -/
def generate_rotations (piece : List Cell) : List (List Cell) :=
  (seqResults piece).foldl addIfNew []

/-- Piece `z`. -/
def zPiece : List Cell := [(0,0,0),(1,0,0),(1,1,0),(2,1,0)]
/-- Piece `p`. -/
def pPiece : List Cell := [(0,0,0),(0,1,0),(0,1,1),(1,1,0)]
/-- Piece `t`. -/
def tPiece : List Cell := [(0,0,0),(0,1,0),(1,1,0),(0,2,0)]
/-- Piece `b`. -/
def bPiece : List Cell := [(0,0,0),(1,0,0),(0,1,0),(0,1,1)]
/-- Piece `a`. -/
def aPiece : List Cell := [(0,0,0),(0,0,1),(0,1,0),(1,1,0)]
/-- Piece `l`. -/
def lPiece : List Cell := [(0,0,0),(1,0,0),(2,0,0),(0,1,0)]
/-- Piece `v`. -/
def vPiece : List Cell := [(0,0,0),(1,0,0),(0,1,0)]

/-- `pieces = [z, p, t, b, a, l, v]`. -/
def pieces : List (List Cell) :=
  [zPiece, pPiece, tPiece, bPiece, aPiece, lPiece, vPiece]

/-- `orientations = [generate_rotations(piece) for piece in pieces]`. -/
def orientationsList : List (List (List Cell)) := pieces.map generate_rotations

/-- `coordinates = [(x, y, z) for x in range(3) for y in range(3) for z in range(3)]`. -/
def coordinates : List Cell :=
  (List.range 3).flatMap fun x =>
    (List.range 3).flatMap fun y =>
      (List.range 3).map fun z => ((x : ℤ), (y : ℤ), (z : ℤ))

/-- The bounds test `0 <= cell[0] < 3 and 0 <= cell[1] < 3 and 0 <= cell[2] < 3`. -/
def cellInCube (c : Cell) : Bool :=
  decide (0 ≤ c.1 ∧ c.1 < 3 ∧ 0 ≤ c.2.1 ∧ c.2.1 < 3 ∧ 0 ≤ c.2.2 ∧ c.2.2 < 3)

/-- The inner double loop of `exactly_one`: for each `i < j`, the binary
clause `[-variables[i], -variables[j]]`, in loop order (each variable
negated against every later one). -/
def pairsFrom : List ℕ → List (List ℤ)
  | [] => []
  | v :: rest => rest.map (fun (w : ℕ) => [-(v : ℤ), -(w : ℤ)]) ++ pairsFrom rest

/-- `exactly_one(variables)`: no clauses for an empty group; otherwise the
at-least-one clause (all variables, positive) followed by the pairwise
at-most-one clauses.  Variable ids are `ℕ`; literals are signed `ℤ`. -/
def exactly_one (vars : List ℕ) : List (List ℤ) :=
  match vars with
  | [] => []
  | _ :: _ => (vars.map (fun (v : ℕ) => (v : ℤ))) :: pairsFrom vars

/-- Truth value of a literal under an assignment of the variables. -/
def evalLit (a : ℕ → Bool) (lit : ℤ) : Bool :=
  if 0 < lit then a lit.toNat else ! a (-lit).toNat

/-- Truth value of a clause (disjunction of its literals). -/
def evalClause (a : ℕ → Bool) (cl : List ℤ) : Bool :=
  cl.any (evalLit a)

/-! ## Generic list lemmas for the dedup-append fold -/

theorem mem_addIfNew {α : Type} [DecidableEq α] (acc : List α) (t x : α) :
    x ∈ addIfNew acc t ↔ x ∈ acc ∨ x = t := by
  unfold addIfNew
  split
  · constructor
    · exact fun h => Or.inl h
    · rintro (h | rfl)
      · exact h
      · assumption
  · simp [List.mem_append]

theorem nodup_addIfNew {α : Type} [DecidableEq α] (acc : List α) (t : α)
    (h : acc.Nodup) : (addIfNew acc t).Nodup := by
  unfold addIfNew
  split
  · exact h
  · rename_i ht
    simpa [List.nodup_append, ht] using h

theorem mem_foldl_addIfNew {α : Type} [DecidableEq α] (l : List α)
    (acc : List α) (x : α) :
    x ∈ l.foldl addIfNew acc ↔ x ∈ acc ∨ x ∈ l := by
  induction l generalizing acc with
  | nil => simp
  | cons t l ih =>
      simp only [List.foldl_cons, ih, mem_addIfNew, List.mem_cons]
      tauto

theorem nodup_foldl_addIfNew {α : Type} [DecidableEq α] (l : List α)
    (acc : List α) (h : acc.Nodup) : (l.foldl addIfNew acc).Nodup := by
  induction l generalizing acc with
  | nil => exact h
  | cons t l ih => exact ih _ (nodup_addIfNew _ _ h)

/-- Membership in `generate_rotations piece` is membership among the 1024
canonicalized composition results. -/
theorem mem_generate_rotations (piece : List Cell) (x : List Cell) :
    x ∈ generate_rotations piece ↔ x ∈ seqResults piece := by
  unfold generate_rotations
  rw [mem_foldl_addIfNew]
  simp

/-! ## Sorting and canonicalization lemmas -/

theorem cellLe_iff (a b : Cell) :
    cellLe a b = true ↔
      a.1 < b.1 ∨ (a.1 = b.1 ∧ (a.2.1 < b.2.1 ∨ (a.2.1 = b.2.1 ∧ a.2.2 ≤ b.2.2))) := by
  simp [cellLe]

theorem cellLe_refl (a : Cell) : cellLe a a = true := by
  rw [cellLe_iff]; omega

theorem cellLe_total (a b : Cell) : cellLe a b = true ∨ cellLe b a = true := by
  rw [cellLe_iff, cellLe_iff]; omega

theorem cellLe_trans {a b c : Cell} (h1 : cellLe a b = true)
    (h2 : cellLe b c = true) : cellLe a c = true := by
  rw [cellLe_iff] at h1 h2 ⊢; omega

theorem insertCell_perm (c : Cell) (l : List Cell) :
    List.Perm (insertCell c l) (c :: l) := by
  induction l with
  | nil => rfl
  | cons d l ih =>
      unfold insertCell
      split
      · rfl
      · exact (ih.cons d).trans (List.Perm.swap c d l)

theorem sortCells_perm (l : List Cell) : List.Perm (sortCells l) l := by
  induction l with
  | nil => rfl
  | cons c l ih => exact (insertCell_perm c (sortCells l)).trans (ih.cons c)

theorem mem_sortCells (l : List Cell) (x : Cell) :
    x ∈ sortCells l ↔ x ∈ l :=
  (sortCells_perm l).mem_iff

/-- Sortedness of a cell list with respect to `cellLe`. -/
def SortedCells (l : List Cell) : Prop :=
  l.Pairwise (fun a b => cellLe a b = true)

theorem sortedCells_insertCell (c : Cell) (l : List Cell)
    (h : SortedCells l) : SortedCells (insertCell c l) := by
  induction l with
  | nil => simp [insertCell, SortedCells]
  | cons d l ih =>
      rcases List.pairwise_cons.mp h with ⟨hd, hl⟩
      unfold insertCell
      split
      · rename_i hcd
        exact List.pairwise_cons.mpr
          ⟨fun x hx => by
            rcases List.mem_cons.mp hx with rfl | hx
            · exact hcd
            · exact cellLe_trans hcd (hd x hx), h⟩
      · rename_i hcd
        have hdc : cellLe d c = true := by
          rcases cellLe_total c d with h' | h'
          · exact absurd h' hcd
          · exact h'
        refine List.pairwise_cons.mpr ⟨fun x hx => ?_, ih hl⟩
        rcases List.mem_cons.mp ((insertCell_perm c l).mem_iff.mp hx) with rfl | hx
        · exact hdc
        · exact hd x hx

theorem sortedCells_sortCells (l : List Cell) : SortedCells (sortCells l) := by
  induction l with
  | nil => exact List.Pairwise.nil
  | cons c l ih => exact sortedCells_insertCell c _ ih

theorem sorted_head_le {m : Cell} {rest : List Cell}
    (h : SortedCells (m :: rest)) : ∀ c ∈ m :: rest, cellLe m c = true := by
  intro c hc
  rcases List.mem_cons.mp hc with rfl | hc
  · exact cellLe_refl c
  · exact (List.pairwise_cons.mp h).1 c hc

theorem sortCells_ne_nil {l : List Cell} (h : l ≠ []) : sortCells l ≠ [] := by
  intro hs
  exact h (List.eq_nil_of_length_eq_zero
    (by simpa [hs] using (sortCells_perm l).length_eq.symm))

/-- The canonical form of a nonempty list starts at the origin: the head
of the sorted list is translated onto `(0, 0, 0)`. -/
theorem canon_head (l : List Cell) (h : l ≠ []) :
    (canon l).head? = some ((0 : ℤ), (0 : ℤ), (0 : ℤ)) := by
  unfold canon
  rcases hs : sortCells l with _ | ⟨m, rest⟩
  · exact absurd hs (sortCells_ne_nil h)
  · simp

/-- Every cell of a canonical form has a non-negative `x`-coordinate
(the sorted head has minimal `x` since `cellLe` compares `x` first). -/
theorem canon_x_nonneg (l : List Cell) :
    ∀ c ∈ canon l, 0 ≤ c.1 := by
  intro c hc
  unfold canon at hc
  rcases hs : sortCells l with _ | ⟨m, rest⟩
  · rw [hs] at hc; simp at hc
  · rw [hs] at hc
    rcases List.mem_map.mp hc with ⟨d, hd, rfl⟩
    have hmd : cellLe m d = true := by
      have := sorted_head_le (by rw [← hs]; exact sortedCells_sortCells l) d hd
      exact this
    rw [cellLe_iff] at hmd
    dsimp only
    omega

/-- Exhibiting one five-fold composition shows membership among the 1024
composition results. -/
theorem mem_seqResults_of (piece : List Cell)
    (f_a f_b f_c f_d f_e : List Cell → List Cell)
    (ha : f_a ∈ transforms) (hb : f_b ∈ transforms) (hc : f_c ∈ transforms)
    (hd : f_d ∈ transforms) (he : f_e ∈ transforms) :
    canon (f_a (f_b (f_c (f_d (f_e piece))))) ∈ seqResults piece := by
  unfold seqResults
  exact List.mem_flatMap.mpr ⟨f_a, ha, List.mem_flatMap.mpr ⟨f_b, hb,
    List.mem_flatMap.mpr ⟨f_c, hc, List.mem_flatMap.mpr ⟨f_d, hd,
      List.mem_map.mpr ⟨f_e, he, rfl⟩⟩⟩⟩⟩

/-- Every element of `seqResults piece` is the canonical form of a
transform image of `piece`, which has the same length as `piece`. -/
theorem length_of_mem_transforms (f : List Cell → List Cell)
    (hf : f ∈ transforms) (l : List Cell) : (f l).length = l.length := by
  simp only [transforms, List.mem_cons, List.mem_singleton, List.not_mem_nil,
    or_false] at hf
  rcases hf with rfl | rfl | rfl | rfl
  · rfl
  · exact List.length_map _ _
  · exact List.length_map _ _
  · exact List.length_map _ _

theorem mem_seqResults_elim {piece x : List Cell}
    (hx : x ∈ seqResults piece) :
    ∃ l : List Cell, x = canon l ∧ l.length = piece.length := by
  unfold seqResults at hx
  rcases List.mem_flatMap.mp hx with ⟨f_a, ha, hx⟩
  rcases List.mem_flatMap.mp hx with ⟨f_b, hb, hx⟩
  rcases List.mem_flatMap.mp hx with ⟨f_c, hc, hx⟩
  rcases List.mem_flatMap.mp hx with ⟨f_d, hd, hx⟩
  rcases List.mem_map.mp hx with ⟨f_e, he, rfl⟩
  refine ⟨_, rfl, ?_⟩
  rw [length_of_mem_transforms f_a ha, length_of_mem_transforms f_b hb,
    length_of_mem_transforms f_c hc, length_of_mem_transforms f_d hd,
    length_of_mem_transforms f_e he]

/-! ## The rotation group of the cube, as integer matrices -/

/-- A 3×3 integer matrix, stored as three rows. -/
abbrev Mat := Cell × Cell × Cell

/-- Dot product of integer triples. -/
def dot (u v : Cell) : ℤ := u.1 * v.1 + u.2.1 * v.2.1 + u.2.2 * v.2.2

/-- Matrix–vector product (rows dotted with the vector). -/
def mulVec (M : Mat) (v : Cell) : Cell := (dot M.1 v, dot M.2.1 v, dot M.2.2 v)

/-- Matrix product, rows of `A` against columns of `B`. -/
def matMul (A B : Mat) : Mat :=
  ((dot A.1 (B.1.1, B.2.1.1, B.2.2.1),
    dot A.1 (B.1.2.1, B.2.1.2.1, B.2.2.2.1),
    dot A.1 (B.1.2.2, B.2.1.2.2, B.2.2.2.2)),
   (dot A.2.1 (B.1.1, B.2.1.1, B.2.2.1),
    dot A.2.1 (B.1.2.1, B.2.1.2.1, B.2.2.2.1),
    dot A.2.1 (B.1.2.2, B.2.1.2.2, B.2.2.2.2)),
   (dot A.2.2 (B.1.1, B.2.1.1, B.2.2.1),
    dot A.2.2 (B.1.2.1, B.2.1.2.1, B.2.2.2.1),
    dot A.2.2 (B.1.2.2, B.2.1.2.2, B.2.2.2.2)))

/-- Determinant of a 3×3 matrix given by rows. -/
def det (M : Mat) : ℤ :=
  M.1.1 * (M.2.1.2.1 * M.2.2.2.2 - M.2.1.2.2 * M.2.2.2.1)
    - M.1.2.1 * (M.2.1.1 * M.2.2.2.2 - M.2.1.2.2 * M.2.2.1)
    + M.1.2.2 * (M.2.1.1 * M.2.2.2.1 - M.2.1.2.1 * M.2.2.1)

/-- The identity matrix. -/
def I3 : Mat := ((1,0,0),(0,1,0),(0,0,1))
/-- The matrix of `rotate_x`: `(x, y, z) ↦ (x, z, -y)`. -/
def RxM : Mat := ((1,0,0),(0,0,1),(0,-1,0))
/-- The matrix of `rotate_y`: `(x, y, z) ↦ (z, y, -x)`. -/
def RyM : Mat := ((0,0,1),(0,1,0),(-1,0,0))
/-- The matrix of `rotate_z`: `(x, y, z) ↦ (-y, x, z)`. -/
def RzM : Mat := ((0,-1,0),(1,0,0),(0,0,1))

/-- The matrices of the four candidate transforms, in the same order as
`transforms`. -/
def mats4 : List Mat := [I3, RxM, RyM, RzM]

/-- The products of all `4^5` five-fold compositions, in the same order
as `seqResults` (`f_e` applied first, so the product is
`Ma·Mb·Mc·Md·Me`). -/
def seqMats : List Mat :=
  mats4.flatMap fun Ma =>
    mats4.flatMap fun Mb =>
      mats4.flatMap fun Mc =>
        mats4.flatMap fun Md =>
          mats4.map fun Me =>
            matMul Ma (matMul Mb (matMul Mc (matMul Md Me)))

/-- The six signed unit vectors of `ℤ³`. -/
def unitVecs : List Cell := [(1,0,0),(-1,0,0),(0,1,0),(0,-1,0),(0,0,1),(0,0,-1)]

/-- Rows pairwise orthogonal and determinant one. -/
def rotCheck (M : Mat) : Bool :=
  (dot M.1 M.2.1 == 0) && (dot M.1 M.2.2 == 0) && (dot M.2.1 M.2.2 == 0)
    && (det M == 1)

/-- The rotation group of the cube acting on `ℤ³`: the 24 proper rotations,
characterized as the matrices with signed-unit-vector rows, pairwise
orthogonal, of determinant `1` (i.e. the special orthogonal integer
matrices). -/
def rot24 : List Mat :=
  (unitVecs.flatMap fun r1 =>
    unitVecs.flatMap fun r2 =>
      unitVecs.map fun r3 => ((r1, r2, r3) : Mat)).filter rotCheck

theorem mulVec_matMul (A B : Mat) (v : Cell) :
    mulVec (matMul A B) v = mulVec A (mulVec B v) := by
  rcases A with ⟨⟨a11, a12, a13⟩, ⟨a21, a22, a23⟩, ⟨a31, a32, a33⟩⟩
  rcases B with ⟨⟨b11, b12, b13⟩, ⟨b21, b22, b23⟩, ⟨b31, b32, b33⟩⟩
  rcases v with ⟨x, y, z⟩
  simp only [matMul, mulVec, dot, Prod.mk.injEq]
  refine ⟨by ring, by ring, by ring⟩

theorem matMul_assoc (A B C : Mat) :
    matMul (matMul A B) C = matMul A (matMul B C) := by
  rcases A with ⟨⟨a11, a12, a13⟩, ⟨a21, a22, a23⟩, ⟨a31, a32, a33⟩⟩
  rcases B with ⟨⟨b11, b12, b13⟩, ⟨b21, b22, b23⟩, ⟨b31, b32, b33⟩⟩
  rcases C with ⟨⟨c11, c12, c13⟩, ⟨c21, c22, c23⟩, ⟨c31, c32, c33⟩⟩
  simp only [matMul, dot, Prod.mk.injEq]
  exact ⟨⟨by ring, by ring, by ring⟩, ⟨by ring, by ring, by ring⟩,
    by ring, by ring, by ring⟩

theorem map_mulVec_comp (A B : Mat) (l : List Cell) :
    (l.map (mulVec B)).map (mulVec A) = l.map (mulVec (matMul A B)) := by
  rw [List.map_map]
  exact List.map_congr_left fun x _ => (mulVec_matMul A B x).symm

/-- Each candidate transform acts as its matrix, pointwise. -/
theorem transform_eq_map_mulVec :
    ∀ f ∈ transforms, ∃ M ∈ mats4, ∀ l : List Cell, f l = l.map (mulVec M) := by
  intro f hf
  simp only [transforms, List.mem_cons, List.not_mem_nil, or_false] at hf
  rcases hf with rfl | rfl | rfl | rfl
  · refine ⟨I3, by simp [mats4], fun l => ?_⟩
    have hI : mulVec I3 = id := by
      funext c
      rcases c with ⟨x, y, z⟩
      simp [mulVec, dot, I3]
    rw [hI, List.map_id]
    rfl
  · exact ⟨RxM, by simp [mats4], fun l => List.map_congr_left fun c _ => by
      rcases c with ⟨x, y, z⟩
      simp [mulVec, dot, RxM]⟩
  · exact ⟨RyM, by simp [mats4], fun l => List.map_congr_left fun c _ => by
      rcases c with ⟨x, y, z⟩
      simp [mulVec, dot, RyM]⟩
  · exact ⟨RzM, by simp [mats4], fun l => List.map_congr_left fun c _ => by
      rcases c with ⟨x, y, z⟩
      simp [mulVec, dot, RzM]⟩

/-- Conversely, each of the four matrices is realized by a transform. -/
theorem mat_realized_by_transform :
    ∀ M ∈ mats4, ∃ f ∈ transforms, ∀ l : List Cell, f l = l.map (mulVec M) := by
  intro M hM
  simp only [mats4, List.mem_cons, List.not_mem_nil, or_false] at hM
  have h := transform_eq_map_mulVec
  rcases hM with rfl | rfl | rfl | rfl
  · rcases h identity (by simp [transforms]) with ⟨N, hN, he⟩
    simp only [mats4, List.mem_cons, List.not_mem_nil, or_false] at hN
    exact ⟨identity, by simp [transforms], by
      have : N = I3 := by
        rcases hN with rfl | rfl | rfl | rfl
        · rfl
        all_goals {
          have h0 := he [((1 : ℤ), (2 : ℤ), (3 : ℤ))]
          simp [identity, mulVec, dot, RxM, RyM, RzM] at h0 }
      rw [← this]
      exact he⟩
  · exact ⟨rotate_x, by simp [transforms], fun l => List.map_congr_left fun c _ => by
      rcases c with ⟨x, y, z⟩
      simp [rotate_x, mulVec, dot, RxM]⟩
  · exact ⟨rotate_y, by simp [transforms], fun l => List.map_congr_left fun c _ => by
      rcases c with ⟨x, y, z⟩
      simp [rotate_y, mulVec, dot, RyM]⟩
  · exact ⟨rotate_z, by simp [transforms], fun l => List.map_congr_left fun c _ => by
      rcases c with ⟨x, y, z⟩
      simp [rotate_z, mulVec, dot, RzM]⟩

/-- Membership in the 1024 composition results, in matrix form. -/
theorem mem_seqResults_iff_mats (piece x : List Cell) :
    x ∈ seqResults piece ↔
      ∃ P ∈ seqMats, x = canon (piece.map (mulVec P)) := by
  constructor
  · intro hx
    unfold seqResults at hx
    rcases List.mem_flatMap.mp hx with ⟨f_a, ha, hx⟩
    rcases List.mem_flatMap.mp hx with ⟨f_b, hb, hx⟩
    rcases List.mem_flatMap.mp hx with ⟨f_c, hc, hx⟩
    rcases List.mem_flatMap.mp hx with ⟨f_d, hd, hx⟩
    rcases List.mem_map.mp hx with ⟨f_e, he, rfl⟩
    rcases transform_eq_map_mulVec f_a ha with ⟨Ma, hMa, ea⟩
    rcases transform_eq_map_mulVec f_b hb with ⟨Mb, hMb, eb⟩
    rcases transform_eq_map_mulVec f_c hc with ⟨Mc, hMc, ec⟩
    rcases transform_eq_map_mulVec f_d hd with ⟨Md, hMd, ed⟩
    rcases transform_eq_map_mulVec f_e he with ⟨Me, hMe, ee⟩
    refine ⟨matMul Ma (matMul Mb (matMul Mc (matMul Md Me))), ?_, ?_⟩
    · unfold seqMats
      exact List.mem_flatMap.mpr ⟨Ma, hMa, List.mem_flatMap.mpr ⟨Mb, hMb,
        List.mem_flatMap.mpr ⟨Mc, hMc, List.mem_flatMap.mpr ⟨Md, hMd,
          List.mem_map.mpr ⟨Me, hMe, rfl⟩⟩⟩⟩⟩
    · rw [ee, ed, ec, eb, ea, map_mulVec_comp, map_mulVec_comp,
        map_mulVec_comp, map_mulVec_comp]
      simp [matMul_assoc]
  · rintro ⟨P, hP, rfl⟩
    unfold seqMats at hP
    rcases List.mem_flatMap.mp hP with ⟨Ma, hMa, hP⟩
    rcases List.mem_flatMap.mp hP with ⟨Mb, hMb, hP⟩
    rcases List.mem_flatMap.mp hP with ⟨Mc, hMc, hP⟩
    rcases List.mem_flatMap.mp hP with ⟨Md, hMd, hP⟩
    rcases List.mem_map.mp hP with ⟨Me, hMe, rfl⟩
    rcases mat_realized_by_transform Ma hMa with ⟨f_a, ha, ea⟩
    rcases mat_realized_by_transform Mb hMb with ⟨f_b, hb, eb⟩
    rcases mat_realized_by_transform Mc hMc with ⟨f_c, hc, ec⟩
    rcases mat_realized_by_transform Md hMd with ⟨f_d, hd, ed⟩
    rcases mat_realized_by_transform Me hMe with ⟨f_e, he, ee⟩
    have : canon (piece.map (mulVec (matMul Ma (matMul Mb (matMul Mc (matMul Md Me))))))
        = canon (f_a (f_b (f_c (f_d (f_e piece))))) := by
      rw [ee, ed, ec, eb, ea, map_mulVec_comp, map_mulVec_comp,
        map_mulVec_comp, map_mulVec_comp]
      simp [matMul_assoc]
    rw [this]
    exact mem_seqResults_of piece f_a f_b f_c f_d f_e ha hb hc hd he

set_option maxRecDepth 100000 in
theorem seqMats_sub_rot24_b :
    seqMats.all (fun M => decide (M ∈ rot24)) = true := by rfl

/-- Every five-fold product of generators lies in the rotation group. -/
theorem seqMats_sub_rot24 : ∀ M ∈ seqMats, M ∈ rot24 := by
  intro M hM
  exact of_decide_eq_true (List.all_eq_true.mp seqMats_sub_rot24_b M hM)

set_option maxRecDepth 100000 in
theorem rot24_sub_seqMats_b :
    rot24.all (fun M => decide (M ∈ seqMats)) = true := by rfl

/-- Every element of the rotation group is reached by one of the 1024
five-fold products of generators. -/
theorem rot24_sub_seqMats : ∀ M ∈ rot24, M ∈ seqMats := by
  intro M hM
  exact of_decide_eq_true (List.all_eq_true.mp rot24_sub_seqMats_b M hM)

/-- **C3.** The cube's rotation group (`rot24`, the 24 integer matrices
with pairwise-orthogonal signed-unit rows and determinant 1) is entirely
reached by the `4^5 = 1024` five-fold compositions of
`{identity, rotate_x, rotate_y, rotate_z}`; consequently, for every
piece, the canonical orientations returned by `generate_rotations` are
exactly the canonical forms of the piece's images under all 24
rotations. -/
theorem C3_group_reached :
    rot24.length = 24
    ∧ (∀ M ∈ rot24, M ∈ seqMats)
    ∧ (∀ (piece x : List Cell),
        x ∈ generate_rotations piece ↔
          ∃ M ∈ rot24, x = canon (piece.map (mulVec M))) := by
  refine ⟨by rfl, rot24_sub_seqMats, fun piece x => ?_⟩
  rw [mem_generate_rotations, mem_seqResults_iff_mats]
  constructor
  · rintro ⟨P, hP, rfl⟩
    exact ⟨P, seqMats_sub_rot24 P hP, rfl⟩
  · rintro ⟨M, hM, rfl⟩
    exact ⟨M, rot24_sub_seqMats M hM, rfl⟩

/-- Witness for C3: `rotate_x`'s matrix is in the rotation group and is
reached; the identity rotation realizes the canonical form of piece `z`
as a generated orientation. -/
theorem C3_witness :
    RxM ∈ seqMats ∧ canon zPiece ∈ generate_rotations zPiece := by
  constructor
  · exact C3_group_reached.2.1 RxM (by decide)
  · exact (C3_group_reached.2.2 zPiece (canon zPiece)).mpr
      ⟨I3, by decide, by decide⟩

/-! ## Orientation-list invariants (C8) -/

instance cellLeAntisymm : IsAntisymm Cell (fun a b => cellLe a b = true) :=
  ⟨fun a b h1 h2 => by
    rw [cellLe_iff] at h1 h2
    rcases a with ⟨ax, ay, az⟩
    rcases b with ⟨bx, by', bz⟩
    simp only [Prod.mk.injEq]
    simp only at h1 h2
    omega⟩

theorem rot24_left_inv : ∀ M ∈ rot24, ∃ N ∈ rot24, matMul N M = I3 := by decide

theorem mulVec_I3 (v : Cell) : mulVec I3 v = v := by
  rcases v with ⟨x, y, z⟩
  simp [mulVec, dot, I3]

theorem mulVec_inj_of_mem_rot24 {M : Mat} (hM : M ∈ rot24) {a b : Cell}
    (h : mulVec M a = mulVec M b) : a = b := by
  rcases rot24_left_inv M hM with ⟨N, _, hNM⟩
  have ha : mulVec N (mulVec M a) = a := by
    rw [← mulVec_matMul, hNM, mulVec_I3]
  have hb : mulVec N (mulVec M b) = b := by
    rw [← mulVec_matMul, hNM, mulVec_I3]
  rw [← ha, ← hb, h]

theorem cellLe_sub_iff (a b m : Cell) :
    cellLe (a.1 - m.1, a.2.1 - m.2.1, a.2.2 - m.2.2)
        (b.1 - m.1, b.2.1 - m.2.1, b.2.2 - m.2.2) = true
      ↔ cellLe a b = true := by
  rw [cellLe_iff, cellLe_iff]
  dsimp only
  omega

/-- The canonical form of any list is sorted. -/
theorem canon_sorted (l : List Cell) : SortedCells (canon l) := by
  unfold canon
  rcases hs : sortCells l with _ | ⟨m, rest⟩
  · exact List.Pairwise.nil
  · have hsor : SortedCells (m :: rest) := by
      rw [← hs]; exact sortedCells_sortCells l
    exact List.pairwise_map.mpr (hsor.imp fun {a b} hab =>
      (cellLe_sub_iff a b m).mpr hab)

/-- The canonical form of a duplicate-free list is duplicate-free. -/
theorem canon_nodup (l : List Cell) (h : l.Nodup) : (canon l).Nodup := by
  unfold canon
  rcases hs : sortCells l with _ | ⟨m, rest⟩
  · exact List.nodup_nil
  · have hns : (m :: rest).Nodup := by
      rw [← hs]; exact ((sortCells_perm l).nodup_iff).mpr h
    refine hns.map ?_
    intro u v huv
    rcases u with ⟨ux, uy, uz⟩
    rcases v with ⟨vx, vy, vz⟩
    simp only [Prod.mk.injEq] at huv ⊢
    omega

/-- Two sorted duplicate-free cell lists with the same members are equal. -/
theorem sorted_nodup_ext {l1 l2 : List Cell} (s1 : SortedCells l1)
    (s2 : SortedCells l2) (n1 : l1.Nodup) (n2 : l2.Nodup)
    (hmem : ∀ c : Cell, c ∈ l1 ↔ c ∈ l2) : l1 = l2 := by
  have hfs : l1.toFinset = l2.toFinset := by
    apply Finset.ext
    intro c
    simp only [List.mem_toFinset]
    exact hmem c
  exact List.eq_of_perm_of_sorted
    (List.perm_of_nodup_nodup_toFinset_eq n1 n2 hfs) s1 s2

/-- **C8.** For every piece, `generate_rotations` returns between 1 and 24
canonical orientations; the returned list has no duplicates, and (for a
duplicate-free piece, as all seven program pieces are) no two entries
are equal even as cell-*sets*. -/
theorem C8_orientation_list (piece : List Cell) :
    1 ≤ (generate_rotations piece).length
    ∧ (generate_rotations piece).length ≤ 24
    ∧ (generate_rotations piece).Nodup
    ∧ (piece.Nodup →
        (generate_rotations piece).Pairwise
          (fun o1 o2 => ¬ (∀ c : Cell, c ∈ o1 ↔ c ∈ o2))) := by
  have hmemiff : ∀ x, x ∈ generate_rotations piece ↔
      ∃ M ∈ rot24, x = canon (piece.map (mulVec M)) := by
    intro x
    rw [mem_generate_rotations, mem_seqResults_iff_mats]
    constructor
    · rintro ⟨P, hP, rfl⟩
      exact ⟨P, seqMats_sub_rot24 P hP, rfl⟩
    · rintro ⟨M, hM, rfl⟩
      exact ⟨M, rot24_sub_seqMats M hM, rfl⟩
  have hnd : (generate_rotations piece).Nodup :=
    nodup_foldl_addIfNew _ _ List.nodup_nil
  refine ⟨?_, ?_, hnd, ?_⟩
  · have hm : canon piece ∈ generate_rotations piece := by
      rw [mem_generate_rotations]
      exact mem_seqResults_of piece identity identity identity identity identity
        (by simp [transforms]) (by simp [transforms]) (by simp [transforms])
        (by simp [transforms]) (by simp [transforms])
    have := List.ne_nil_of_mem hm
    have := List.length_pos.mpr this
    omega
  · have hsub : (generate_rotations piece).toFinset ⊆
        (rot24.map (fun M => canon (piece.map (mulVec M)))).toFinset := by
      intro x hx
      rw [List.mem_toFinset] at hx ⊢
      rcases (hmemiff x).mp hx with ⟨M, hM, rfl⟩
      exact List.mem_map.mpr ⟨M, hM, rfl⟩
    have h1 := List.toFinset_card_of_nodup hnd
    have h2 := Finset.card_le_card hsub
    have h3 := @List.toFinset_card_le (List Cell) _
      (rot24.map (fun M => canon (piece.map (mulVec M))))
    rw [List.length_map] at h3
    have h4 : rot24.length = 24 := by rfl
    omega
  · intro hpn
    refine hnd.pairwise_of_forall_ne ?_
    intro o1 h1 o2 h2 hne hset
    apply hne
    rcases (hmemiff o1).mp h1 with ⟨M1, hM1, rfl⟩
    rcases (hmemiff o2).mp h2 with ⟨M2, hM2, rfl⟩
    have hpn1 : (piece.map (mulVec M1)).Nodup :=
      hpn.map fun a b h => mulVec_inj_of_mem_rot24 hM1 h
    have hpn2 : (piece.map (mulVec M2)).Nodup :=
      hpn.map fun a b h => mulVec_inj_of_mem_rot24 hM2 h
    exact sorted_nodup_ext (canon_sorted _) (canon_sorted _)
      (canon_nodup _ hpn1) (canon_nodup _ hpn2) hset

/-- Witness for C8 at piece `z` (whose cell list is duplicate-free). -/
theorem C8_witness :
    1 ≤ (generate_rotations zPiece).length
    ∧ (generate_rotations zPiece).length ≤ 24
    ∧ (generate_rotations zPiece).Nodup
    ∧ (generate_rotations zPiece).Pairwise
        (fun o1 o2 => ¬ (∀ c : Cell, c ∈ o1 ↔ c ∈ o2)) := by
  have h := C8_orientation_list zPiece
  exact ⟨h.1, h.2.1, h.2.2.1, h.2.2.2 (by decide)⟩

/-! ## Claim C1 (corrected): canonical orientations and axis minima -/

/-- **C1, counterexample.** The canonicalization translates by the
*lexicographically first* sorted cell, not by the per-axis minima, so a
canonical orientation can contain a negative coordinate.  Concretely,
the canonical form of `rotate_x` applied to piece `z` is an orientation
of `z` produced by `generate_rotations` that contains the cell
`(1, 0, -1)`, whose `z`-coordinate is negative — refuting the claim that
every cell of every canonical orientation has all three coordinates
non-negative. -/
theorem C1_counterexample :
    ¬ (∀ piece ∈ pieces, ∀ o ∈ generate_rotations piece, ∀ c ∈ o,
        0 ≤ c.1 ∧ 0 ≤ c.2.1 ∧ 0 ≤ c.2.2) := by
  intro h
  have hmem : canon (rotate_x zPiece) ∈ generate_rotations zPiece := by
    rw [mem_generate_rotations]
    exact mem_seqResults_of zPiece identity identity identity identity rotate_x
      (by simp [transforms]) (by simp [transforms]) (by simp [transforms])
      (by simp [transforms]) (by simp [transforms])
  have hz : zPiece ∈ pieces := by simp [pieces]
  have hcell : ((1 : ℤ), (0 : ℤ), (-1 : ℤ)) ∈ canon (rotate_x zPiece) := by decide
  have := h zPiece hz _ hmem _ hcell
  norm_num at this

/-- **C1, amended.** For every piece and every orientation produced by
`generate_rotations`, the canonical cell-list is the sorted list
translated by its lexicographically smallest cell: its first cell is the
origin, and in particular the minimum `x`-coordinate is zero (all
`x`-coordinates are non-negative and `0` is attained).  The minima along
the `y`- and `z`-axes need not be zero (see the counterexample). -/
theorem C1_canonical_orientation_origin (piece : List Cell)
    (hne : piece ≠ []) :
    ∀ o ∈ generate_rotations piece,
      o.head? = some ((0 : ℤ), (0 : ℤ), (0 : ℤ))
      ∧ (∀ c ∈ o, 0 ≤ c.1)
      ∧ ∃ c ∈ o, c.1 = 0 := by
  intro o ho
  rcases mem_seqResults_elim ((mem_generate_rotations piece o).mp ho) with
    ⟨l, rfl, hlen⟩
  have hlne : l ≠ [] := by
    intro h
    rw [h] at hlen
    exact hne (List.eq_nil_of_length_eq_zero hlen.symm)
  refine ⟨canon_head l hlne, canon_x_nonneg l, ?_⟩
  have hh := canon_head l hlne
  rcases hc : canon l with _ | ⟨c0, rest⟩
  · rw [hc] at hh; simp at hh
  · rw [hc] at hh
    simp only [List.head?_cons, Option.some.injEq] at hh
    exact ⟨c0, List.mem_cons_self c0 rest, by rw [hh]⟩

/-- Witness for the amended C1 at piece `z` and its first orientation. -/
theorem C1_witness :
    (canon zPiece).head? = some ((0 : ℤ), (0 : ℤ), (0 : ℤ))
    ∧ (∀ c ∈ canon zPiece, 0 ≤ c.1)
    ∧ ∃ c ∈ canon zPiece, c.1 = 0 := by
  have hmem : canon zPiece ∈ generate_rotations zPiece := by
    rw [mem_generate_rotations]
    exact mem_seqResults_of zPiece identity identity identity identity identity
      (by simp [transforms]) (by simp [transforms]) (by simp [transforms])
      (by simp [transforms]) (by simp [transforms])
  exact C1_canonical_orientation_origin zPiece (by decide) (canon zPiece) hmem

/-! ## Structure of the pairwise clauses -/

theorem two_mul_pairsFrom_length (l : List ℕ) :
    2 * (pairsFrom l).length = l.length * (l.length - 1) := by
  induction l with
  | nil => rfl
  | cons v rest ih =>
      simp only [pairsFrom, List.length_append, List.length_map, List.length_cons,
        Nat.add_sub_cancel]
      have h : rest.length * (rest.length - 1) + 2 * rest.length =
          (rest.length + 1) * rest.length := by
        cases rest.length with
        | zero => rfl
        | succ m => simp [Nat.succ_sub_one]; ring
      linarith [ih, h]

theorem mem_pairsFrom (l : List ℕ) (cl : List ℤ) :
    cl ∈ pairsFrom l ↔
      ∃ x y : ℕ, [x, y].Sublist l ∧ cl = [-(x : ℤ), -(y : ℤ)] := by
  induction l with
  | nil => simp [pairsFrom]
  | cons v rest ih =>
      simp only [pairsFrom, List.mem_append, List.mem_map, ih]
      constructor
      · rintro (⟨w, hw, rfl⟩ | ⟨x, y, hs, rfl⟩)
        · exact ⟨v, w, (List.cons_sublist_cons.mpr (List.singleton_sublist.mpr hw)), rfl⟩
        · exact ⟨x, y, hs.cons v, rfl⟩
      · rintro ⟨x, y, hs, rfl⟩
        cases hs with
        | cons _ h => exact Or.inr ⟨x, y, h, rfl⟩
        | cons₂ _ h => exact Or.inl ⟨y, List.singleton_sublist.mp h, rfl⟩

/-! ## Claim theorems: encoder-level claims -/

/-- **C10.** Each axis-rotation function has order 4: applying it four
times to any list of integer triples returns the original list. -/
theorem C10_rotations_order_four (l : List Cell) :
    rotate_x (rotate_x (rotate_x (rotate_x l))) = l
    ∧ rotate_y (rotate_y (rotate_y (rotate_y l))) = l
    ∧ rotate_z (rotate_z (rotate_z (rotate_z l))) = l := by
  refine ⟨?_, ?_, ?_⟩ <;>
    · simp only [rotate_x, rotate_y, rotate_z, List.map_map]
      convert List.map_id l using 2
      funext c
      simp

/-- **C2, counterexample.** Handing the exact-one encoder a group with
zero candidate variables does *not* raise or abort: `exactly_one`
returns normally with an empty clause list, so the degenerate group is
silently skipped rather than surfaced as a hard failure. -/
theorem C2_counterexample : exactly_one [] = [] := rfl

/-- **C2, amended.** On a zero-variable group the encoder silently emits
no clauses and continues (it does not fail); a nonempty group always
produces at least one clause. -/
theorem C2_empty_group_silent :
    exactly_one [] = []
    ∧ ∀ (v : ℕ) (l : List ℕ), exactly_one (v :: l) ≠ [] := by
  exact ⟨rfl, fun v l h => by simp [exactly_one] at h⟩

/-- **C5.** For a non-empty group of `k` variables, the encoder emits the
single at-least-one clause listing all `k` variables as positive
literals, followed by exactly `k*(k-1)/2` binary clauses, one per
unordered pair `i < j` (rendered here as two-element sublists), each
consisting of the negations of the two paired variables and nothing
else. -/
theorem C5_exactly_one_shape (v : ℕ) (rest : List ℕ)
    (hpos : ∀ x ∈ v :: rest, 0 < x) :
    exactly_one (v :: rest) =
      ((v :: rest).map (fun (x : ℕ) => (x : ℤ))) :: pairsFrom (v :: rest)
    ∧ (∀ lit ∈ (v :: rest).map (fun (x : ℕ) => (x : ℤ)), 0 < lit)
    ∧ (pairsFrom (v :: rest)).length =
        (v :: rest).length * ((v :: rest).length - 1) / 2
    ∧ (∀ cl ∈ pairsFrom (v :: rest),
        ∃ x y : ℕ, [x, y].Sublist (v :: rest) ∧ cl = [-(x : ℤ), -(y : ℤ)])
    ∧ (∀ x y : ℕ, [x, y].Sublist (v :: rest) →
        [-(x : ℤ), -(y : ℤ)] ∈ pairsFrom (v :: rest)) := by
  refine ⟨rfl, ?_, ?_, ?_, ?_⟩
  · intro lit hlit
    rcases List.mem_map.mp hlit with ⟨x, hx, rfl⟩
    exact_mod_cast hpos x hx
  · have h := two_mul_pairsFrom_length (v :: rest)
    omega
  · exact fun cl hcl => (mem_pairsFrom _ cl).mp hcl
  · exact fun x y hs => (mem_pairsFrom _ _).mpr ⟨x, y, hs, rfl⟩

/-- Witness for C5 at the concrete group `[1, 2]`. -/
theorem C5_witness :
    exactly_one [1, 2] = [[(1 : ℤ), 2]] ++ pairsFrom [1, 2]
    ∧ pairsFrom [1, 2] = [[-1, -2]] := by
  have h := C5_exactly_one_shape 1 [2] (by decide)
  exact ⟨h.1, by rfl⟩

/-! ## The placement enumerator

`generate_placements` walks anchors × pieces × orientations × reference
cells, translating each orientation so the reference cell lands on the
anchor, keeping in-bounds results, deduplicating by the key
`(piece, adjusted)` and allocating variable ids `1, 2, 3, …`.  The three
Python dictionaries become: an insertion-ordered association list for
`placements`, a total function `ℕ → List ℕ` for `placements_by_piece`
(initialized empty for every piece), and an insertion-ordered
association list for the `defaultdict(set)` `placements_by_cell`. -/

/-- A placement key: `(piece index, adjusted cell tuple)`. -/
abbrev PKey := ℕ × List Cell

/-- The enumeration state of `generate_placements`. -/
structure PlSt where
  plc : List (PKey × ℕ)
  byPiece : ℕ → List ℕ
  byCell : List (Cell × List ℕ)
  ctr : ℕ

/-- Dictionary lookup in the `placements` association list. -/
def findVar : List (PKey × ℕ) → PKey → Option ℕ
  | [], _ => none
  | (k, v) :: rest, key => if k = key then some v else findVar rest key

/-- `placements_by_piece[piece].add(var)`. -/
def updPiece (f : ℕ → List ℕ) (p : ℕ) (v : ℕ) : ℕ → List ℕ :=
  fun q => if q = p then addIfNew (f p) v else f q

/-- `placements_by_cell[cell].add(var)` on the association list
(`defaultdict`: a missing cell key is created, at the end). -/
def bcUpd : List (Cell × List ℕ) → Cell → ℕ → List (Cell × List ℕ)
  | [], c, v => [(c, [v])]
  | (c', vs) :: rest, c, v =>
      if c' = c then (c', addIfNew vs v) :: rest
      else (c', vs) :: bcUpd rest c v

/-- The per-cell updates for all cells of a placement, in cell order. -/
def bcAddAll (bc : List (Cell × List ℕ)) (cells : List Cell) (v : ℕ) :
    List (Cell × List ℕ) :=
  cells.foldl (fun b c => bcUpd b c v) bc

/-- `adjusted = tuple(sorted((anchor + o - base for o in orient)))`. -/
def translateTo (anchor base : Cell) (orient : List Cell) : List Cell :=
  sortCells (orient.map (fun o =>
    (anchor.1 + o.1 - base.1, anchor.2.1 + o.2.1 - base.2.1,
     anchor.2.2 + o.2.2 - base.2.2)))

/-- One iteration of the innermost loop body of `generate_placements`. -/
def plStep (s : PlSt) (t : Cell × ℕ × List Cell × Cell) : PlSt :=
  let adjusted := translateTo t.1 t.2.2.2 t.2.2.1
  if adjusted.all cellInCube then
    match findVar s.plc (t.2.1, adjusted) with
    | some v =>
        { s with byPiece := updPiece s.byPiece t.2.1 v,
                 byCell := bcAddAll s.byCell adjusted v }
    | none =>
        { plc := s.plc ++ [((t.2.1, adjusted), s.ctr)],
          byPiece := updPiece s.byPiece t.2.1 s.ctr,
          byCell := bcAddAll s.byCell adjusted s.ctr,
          ctr := s.ctr + 1 }
  else s

/-- The loop nest `for anchor in coordinates: for piece in range(7):
for orient in orientations[piece]: for base in orient`, flattened in
iteration order. -/
def allTuples : List (Cell × ℕ × List Cell × Cell) :=
  coordinates.flatMap fun anchor =>
    (List.range 7).flatMap fun piece =>
      (orientationsList.getD piece []).flatMap fun orient =>
        orient.map fun base => (anchor, piece, orient, base)

/-- Initial state: empty dictionaries, `var_counter = 1`. -/
def initSt : PlSt := ⟨[], fun _ => [], [], 1⟩

/-- `generate_placements()`: the final enumeration state. -/
def generate_placements : PlSt := allTuples.foldl plStep initSt

/-- The clause list built by `generate_sat_instance()` from the two
indexes: the piece-group clauses (pieces `0..6` in order) followed by
the cell-group clauses (cells in first-touch order).  Parameterized over
the two indexes; the pipeline instantiates it at
`generate_placements.byPiece` and `generate_placements.byCell`. -/
def mkClauses (bp : ℕ → List ℕ) (bc : List (Cell × List ℕ)) : List (List ℤ) :=
  (List.range 7).flatMap (fun p => exactly_one (bp p))
    ++ bc.flatMap (fun cv => exactly_one cv.2)

/-- `generate_sat_instance()`: the full formula — clause list and
variable count (`num_vars = var_counter - 1`).  The claims below refer
to its two components directly, as
`mkClauses generate_placements.byPiece generate_placements.byCell` and
`generate_placements.ctr - 1`. -/
def generate_sat_instance : List (List ℤ) × ℕ :=
  (mkClauses generate_placements.byPiece generate_placements.byCell,
   generate_placements.ctr - 1)

/-! ### Lookup lemmas -/

theorem findVar_some_mem {plc : List (PKey × ℕ)} {key : PKey} {v : ℕ}
    (h : findVar plc key = some v) : (key, v) ∈ plc := by
  induction plc with
  | nil => cases h
  | cons kv rest ih =>
      rcases kv with ⟨k, w⟩
      unfold findVar at h
      split at h
      · rename_i hk
        cases h
        rw [← hk]
        exact List.mem_cons_self _ _
      · exact List.mem_cons_of_mem _ (ih h)

theorem findVar_none_not_mem {plc : List (PKey × ℕ)} {key : PKey}
    (h : findVar plc key = none) : key ∉ plc.map Prod.fst := by
  induction plc with
  | nil => simp
  | cons kv rest ih =>
      rcases kv with ⟨k, w⟩
      unfold findVar at h
      split at h
      · cases h
      · rename_i hk
        simp only [List.map_cons, List.mem_cons]
        rintro (rfl | hm)
        · exact hk rfl
        · exact ih h hm

theorem findVar_isSome_of_mem {plc : List (PKey × ℕ)} {key : PKey}
    (h : key ∈ plc.map Prod.fst) : ∃ v, findVar plc key = some v := by
  induction plc with
  | nil => simp at h
  | cons kv rest ih =>
      rcases kv with ⟨k, w⟩
      unfold findVar
      split
      · exact ⟨w, rfl⟩
      · rename_i hk
        rcases List.mem_cons.mp h with h1 | h1
        · exact absurd h1.symm hk
        · exact ih h1

/-! ### Properties of the dictionary updates -/

theorem sub_addIfNew {α : Type} [DecidableEq α] (acc : List α) (t : α) :
    acc ⊆ addIfNew acc t := fun _ hx => (mem_addIfNew acc t _).mpr (Or.inl hx)

theorem self_mem_addIfNew {α : Type} [DecidableEq α] (acc : List α) (t : α) :
    t ∈ addIfNew acc t := (mem_addIfNew acc t t).mpr (Or.inr rfl)

theorem addIfNew_ne_nil {α : Type} [DecidableEq α] (acc : List α) (t : α) :
    addIfNew acc t ≠ [] := by
  intro h
  have := self_mem_addIfNew acc t
  rw [h] at this
  cases this

theorem updPiece_same (f : ℕ → List ℕ) (p v : ℕ) :
    updPiece f p v p = addIfNew (f p) v := by simp [updPiece]

theorem updPiece_ne (f : ℕ → List ℕ) (p v : ℕ) {q : ℕ} (h : q ≠ p) :
    updPiece f p v q = f q := by simp [updPiece, h]

theorem mem_updPiece_elim {f : ℕ → List ℕ} {p v q w : ℕ}
    (h : w ∈ updPiece f p v q) : w ∈ f q ∨ (q = p ∧ w = v) := by
  unfold updPiece at h
  split at h
  · rename_i hq
    rcases (mem_addIfNew _ _ _).mp h with h1 | rfl
    · exact Or.inl (hq ▸ h1)
    · exact Or.inr ⟨hq, rfl⟩
  · exact Or.inl h

theorem sub_updPiece (f : ℕ → List ℕ) (p v q : ℕ) :
    f q ⊆ updPiece f p v q := by
  unfold updPiece
  split
  · rename_i hq
    rw [hq]
    exact sub_addIfNew _ _
  · exact fun _ h => h

theorem mem_bcUpd_elim {bc : List (Cell × List ℕ)} {c : Cell} {v : ℕ}
    {e : Cell × List ℕ} (h : e ∈ bcUpd bc c v) :
    e ∈ bc ∨ (∃ vs, (c, vs) ∈ bc ∧ e = (c, addIfNew vs v)) ∨ e = (c, [v]) := by
  induction bc with
  | nil =>
      simp only [bcUpd, List.mem_singleton] at h
      exact Or.inr (Or.inr h)
  | cons hd rest ih =>
      rcases hd with ⟨c', vs'⟩
      unfold bcUpd at h
      split at h
      · rename_i hc
        rcases List.mem_cons.mp h with rfl | h1
        · exact Or.inr (Or.inl ⟨vs', by rw [hc]; exact List.mem_cons_self _ _,
            by rw [hc]⟩)
        · exact Or.inl (List.mem_cons_of_mem _ h1)
      · rcases List.mem_cons.mp h with rfl | h1
        · exact Or.inl (List.mem_cons_self _ _)
        · rcases ih h1 with h2 | ⟨vs, hvs, rfl⟩ | rfl
          · exact Or.inl (List.mem_cons_of_mem _ h2)
          · exact Or.inr (Or.inl ⟨vs, List.mem_cons_of_mem _ hvs, rfl⟩)
          · exact Or.inr (Or.inr rfl)

theorem bcUpd_mono_entry {bc : List (Cell × List ℕ)} (c : Cell) (v : ℕ)
    {c₀ : Cell} {vs₀ : List ℕ} (h : (c₀, vs₀) ∈ bc) :
    ∃ vs₁, (c₀, vs₁) ∈ bcUpd bc c v ∧ vs₀ ⊆ vs₁ := by
  induction bc with
  | nil => cases h
  | cons hd rest ih =>
      rcases hd with ⟨c', vs'⟩
      unfold bcUpd
      split
      · rename_i hc
        rcases List.mem_cons.mp h with heq | h1
        · rcases Prod.mk.injEq .. ▸ heq with ⟨h1, h2⟩
          exact ⟨addIfNew vs' v, by rw [h1]; exact List.mem_cons_self _ _,
            by rw [h2]; exact sub_addIfNew _ _⟩
        · exact ⟨vs₀, List.mem_cons_of_mem _ h1, fun _ hx => hx⟩
      · rcases List.mem_cons.mp h with heq | h1
        · exact ⟨vs₀, heq ▸ List.mem_cons_self _ _, fun _ hx => hx⟩
        · rcases ih h1 with ⟨vs₁, hm, hs⟩
          exact ⟨vs₁, List.mem_cons_of_mem _ hm, hs⟩

theorem bcUpd_cover (bc : List (Cell × List ℕ)) (c : Cell) (v : ℕ) :
    ∃ vs, (c, vs) ∈ bcUpd bc c v ∧ v ∈ vs := by
  induction bc with
  | nil => exact ⟨[v], List.mem_singleton_self _, List.mem_singleton_self _⟩
  | cons hd rest ih =>
      rcases hd with ⟨c', vs'⟩
      unfold bcUpd
      split
      · rename_i hc
        exact ⟨addIfNew vs' v, by rw [← hc]; exact List.mem_cons_self _ _,
          self_mem_addIfNew _ _⟩
      · rcases ih with ⟨vs, hm, hv⟩
        exact ⟨vs, List.mem_cons_of_mem _ hm, hv⟩

theorem bcUpd_keys_sub {bc : List (Cell × List ℕ)} {c : Cell} {v : ℕ} :
    ∀ k ∈ (bcUpd bc c v).map Prod.fst, k ∈ bc.map Prod.fst ∨ k = c := by
  intro k hk
  rcases List.mem_map.mp hk with ⟨e, he, rfl⟩
  rcases mem_bcUpd_elim he with h | ⟨vs, hvs, rfl⟩ | rfl
  · exact Or.inl (List.mem_map.mpr ⟨e, h, rfl⟩)
  · exact Or.inr rfl
  · exact Or.inr rfl

theorem bcUpd_keys_nodup {bc : List (Cell × List ℕ)} (c : Cell) (v : ℕ)
    (h : (bc.map Prod.fst).Nodup) : ((bcUpd bc c v).map Prod.fst).Nodup := by
  induction bc with
  | nil => simp [bcUpd]
  | cons hd rest ih =>
      rcases hd with ⟨c', vs'⟩
      simp only [List.map_cons, List.nodup_cons] at h
      unfold bcUpd
      split
      · simpa [List.nodup_cons] using h
      · rename_i hc
        simp only [List.map_cons, List.nodup_cons]
        refine ⟨fun hmem => ?_, ih h.2⟩
        rcases bcUpd_keys_sub c' hmem with h1 | rfl
        · exact h.1 h1
        · exact hc rfl

theorem bcAddAll_mono_entry (cells : List Cell) (v : ℕ)
    {bc : List (Cell × List ℕ)} {c₀ : Cell} {vs₀ : List ℕ}
    (h : (c₀, vs₀) ∈ bc) :
    ∃ vs₁, (c₀, vs₁) ∈ bcAddAll bc cells v ∧ vs₀ ⊆ vs₁ := by
  induction cells generalizing bc vs₀ with
  | nil => exact ⟨vs₀, h, fun _ hx => hx⟩
  | cons c cells ih =>
      rcases bcUpd_mono_entry c v h with ⟨vs₁, hm, hs⟩
      rcases ih hm with ⟨vs₂, hm₂, hs₂⟩
      exact ⟨vs₂, hm₂, fun x hx => hs₂ (hs hx)⟩

theorem bcAddAll_cover {cells : List Cell} (v : ℕ)
    (bc : List (Cell × List ℕ)) {c : Cell} (hc : c ∈ cells) :
    ∃ vs, (c, vs) ∈ bcAddAll bc cells v ∧ v ∈ vs := by
  induction cells generalizing bc with
  | nil => cases hc
  | cons c' cells ih =>
      rcases List.mem_cons.mp hc with rfl | h1
      · rcases bcUpd_cover bc c v with ⟨vs, hm, hv⟩
        rcases bcAddAll_mono_entry cells v hm with ⟨vs₁, hm₁, hs₁⟩
        exact ⟨vs₁, hm₁, hs₁ hv⟩
      · exact ih _ h1

theorem bcAddAll_elim {cells : List Cell} {v : ℕ}
    {bc : List (Cell × List ℕ)} {e : Cell × List ℕ}
    (he : e ∈ bcAddAll bc cells v) :
    ∀ w ∈ e.2, (∃ vs₁, (e.1, vs₁) ∈ bc ∧ w ∈ vs₁) ∨ (w = v ∧ e.1 ∈ cells) := by
  induction cells generalizing bc with
  | nil => exact fun w hw => Or.inl ⟨e.2, by rcases e with ⟨c₀, vs₀⟩; exact he, hw⟩
  | cons c cells ih =>
      intro w hw
      rcases ih he w hw with ⟨vs₁, hm, hw₁⟩ | ⟨rfl, hc⟩
      · rcases mem_bcUpd_elim hm with h1 | ⟨vs, hvs, heq⟩ | heq
        · exact Or.inl ⟨vs₁, h1, hw₁⟩
        · rcases Prod.mk.injEq .. ▸ heq with ⟨h2, h3⟩
          rcases (mem_addIfNew _ _ _).mp (h3 ▸ hw₁) with h4 | rfl
          · exact Or.inl ⟨vs, h2 ▸ hvs, h4⟩
          · exact Or.inr ⟨rfl, h2 ▸ List.mem_cons_self _ _⟩
        · rcases Prod.mk.injEq .. ▸ heq with ⟨h2, h3⟩
          rw [h3] at hw₁
          rcases List.mem_singleton.mp hw₁ with rfl
          exact Or.inr ⟨rfl, h2 ▸ List.mem_cons_self _ _⟩
      · exact Or.inr ⟨rfl, List.mem_cons_of_mem _ hc⟩

theorem bcAddAll_keys_nodup (cells : List Cell) (v : ℕ)
    {bc : List (Cell × List ℕ)} (h : (bc.map Prod.fst).Nodup) :
    ((bcAddAll bc cells v).map Prod.fst).Nodup := by
  induction cells generalizing bc with
  | nil => exact h
  | cons c cells ih => exact ih (bcUpd_keys_nodup c v h)

theorem bcAddAll_vs_nodup (cells : List Cell) (v : ℕ)
    {bc : List (Cell × List ℕ)} (h : ∀ e ∈ bc, e.2.Nodup) :
    ∀ e ∈ bcAddAll bc cells v, e.2.Nodup := by
  induction cells generalizing bc with
  | nil => exact h
  | cons c cells ih =>
      refine ih fun e he => ?_
      rcases mem_bcUpd_elim he with h1 | ⟨vs, hvs, rfl⟩ | rfl
      · exact h e h1
      · exact nodup_addIfNew _ _ (h _ hvs)
      · simp

theorem bcAddAll_vs_ne_nil (cells : List Cell) (v : ℕ)
    {bc : List (Cell × List ℕ)} (h : ∀ e ∈ bc, e.2 ≠ []) :
    ∀ e ∈ bcAddAll bc cells v, e.2 ≠ [] := by
  induction cells generalizing bc with
  | nil => exact h
  | cons c cells ih =>
      refine ih fun e he => ?_
      rcases mem_bcUpd_elim he with h1 | ⟨vs, hvs, rfl⟩ | rfl
      · exact h e h1
      · exact addIfNew_ne_nil _ _
      · simp

/-! ### The enumeration invariant -/

/-- Invariant maintained by every iteration of `generate_placements`:
variable ids are `1, 2, …` in insertion order; keys are unique; all
stored cells are in bounds; the `by_piece` and `by_cell` indexes are
consistent with the `placements` dictionary. -/
structure PlInv (s : PlSt) : Prop where
  vars_seq : s.plc.map Prod.snd = List.range' 1 s.plc.length
  ctr_eq : s.ctr = s.plc.length + 1
  keys_nodup : (s.plc.map Prod.fst).Nodup
  cells_bound : ∀ kv ∈ s.plc, ∀ c ∈ kv.1.2, cellInCube c = true
  bp_sub : ∀ p : ℕ, ∀ v ∈ s.byPiece p, ∃ cells, ((p, cells), v) ∈ s.plc
  bp_mem : ∀ kv ∈ s.plc, kv.2 ∈ s.byPiece kv.1.1
  bp_nodup : ∀ p : ℕ, (s.byPiece p).Nodup
  bc_keys_nodup : (s.byCell.map Prod.fst).Nodup
  bc_sub : ∀ cv ∈ s.byCell, ∀ v ∈ cv.2,
    ∃ kv ∈ s.plc, kv.2 = v ∧ cv.1 ∈ kv.1.2
  bc_mem : ∀ kv ∈ s.plc, ∀ c ∈ kv.1.2, ∃ vs, (c, vs) ∈ s.byCell ∧ kv.2 ∈ vs
  bc_vs_nodup : ∀ cv ∈ s.byCell, cv.2.Nodup
  bc_vs_ne_nil : ∀ cv ∈ s.byCell, cv.2 ≠ []

theorem plInv_init : PlInv initSt := by
  refine ⟨rfl, rfl, List.nodup_nil, ?_, ?_, ?_, ?_, List.nodup_nil, ?_, ?_, ?_, ?_⟩
    <;> simp [initSt]

theorem updPiece_nodup (f : ℕ → List ℕ) (p v : ℕ)
    (h : ∀ q, (f q).Nodup) : ∀ q, (updPiece f p v q).Nodup := by
  intro q
  unfold updPiece
  split
  · exact nodup_addIfNew _ _ (h p)
  · exact h q

theorem plInv_step (s : PlSt) (t : Cell × ℕ × List Cell × Cell)
    (h : PlInv s) : PlInv (plStep s t) := by
  show PlInv (
    if (translateTo t.1 t.2.2.2 t.2.2.1).all cellInCube = true then
      match findVar s.plc (t.2.1, translateTo t.1 t.2.2.2 t.2.2.1) with
      | some v =>
        { s with byPiece := updPiece s.byPiece t.2.1 v,
                 byCell := bcAddAll s.byCell (translateTo t.1 t.2.2.2 t.2.2.1) v }
      | none =>
        { plc := s.plc ++ [((t.2.1, translateTo t.1 t.2.2.2 t.2.2.1), s.ctr)],
          byPiece := updPiece s.byPiece t.2.1 s.ctr,
          byCell := bcAddAll s.byCell (translateTo t.1 t.2.2.2 t.2.2.1) s.ctr,
          ctr := s.ctr + 1 }
    else s)
  split
  · rename_i hb
    split
    · rename_i v hfv
      have hkv : ((t.2.1, translateTo t.1 t.2.2.2 t.2.2.1), v) ∈ s.plc :=
        findVar_some_mem hfv
      refine ⟨h.vars_seq, h.ctr_eq, h.keys_nodup, h.cells_bound, ?_, ?_, ?_,
        bcAddAll_keys_nodup _ _ h.bc_keys_nodup, ?_, ?_,
        bcAddAll_vs_nodup _ _ h.bc_vs_nodup, bcAddAll_vs_ne_nil _ _ h.bc_vs_ne_nil⟩
      · intro p w hw
        rcases mem_updPiece_elim hw with h1 | ⟨rfl, rfl⟩
        · exact h.bp_sub p w h1
        · exact ⟨_, hkv⟩
      · exact fun kv hm => sub_updPiece _ _ _ _ (h.bp_mem kv hm)
      · exact updPiece_nodup _ _ _ h.bp_nodup
      · intro cv hcv w hw
        rcases bcAddAll_elim hcv w hw with ⟨vs₁, hm, hw₁⟩ | ⟨rfl, hc⟩
        · exact h.bc_sub (cv.1, vs₁) hm w hw₁
        · exact ⟨_, hkv, rfl, hc⟩
      · intro kv hm c hc
        rcases h.bc_mem kv hm c hc with ⟨vs, hvs, hv⟩
        rcases bcAddAll_mono_entry _ _ hvs with ⟨vs₁, hm₁, hs₁⟩
        exact ⟨vs₁, hm₁, hs₁ hv⟩
    · rename_i hfv
      have hnotmem := findVar_none_not_mem hfv
      have hball : ∀ c ∈ translateTo t.1 t.2.2.2 t.2.2.1, cellInCube c = true :=
        List.all_eq_true.mp hb
      have hnewkv : ((t.2.1, translateTo t.1 t.2.2.2 t.2.2.1), s.ctr)
          ∈ s.plc ++ [((t.2.1, translateTo t.1 t.2.2.2 t.2.2.1), s.ctr)] :=
        List.mem_append_right _ (List.mem_singleton_self _)
      refine ⟨?_, ?_, ?_, ?_, ?_, ?_, ?_,
        bcAddAll_keys_nodup _ _ h.bc_keys_nodup, ?_, ?_,
        bcAddAll_vs_nodup _ _ h.bc_vs_nodup, bcAddAll_vs_ne_nil _ _ h.bc_vs_ne_nil⟩
      · simp only [List.map_append, List.map_cons, List.map_nil,
          List.length_append, List.length_cons, List.length_nil]
        rw [h.vars_seq, h.ctr_eq]
        have := @List.range'_concat 1 1 s.plc.length
        simp only [one_mul] at this
        rw [Nat.add_zero, this, Nat.add_comm 1 s.plc.length]
      · simp only [List.length_append, List.length_cons, List.length_nil,
          h.ctr_eq, Nat.add_zero]
      · simp only [List.map_append, List.map_cons, List.map_nil]
        rw [List.nodup_append]
        exact ⟨h.keys_nodup, List.nodup_singleton _,
          fun k hk hk1 => hnotmem (by
            rcases List.mem_singleton.mp hk1 with rfl
            exact hk)⟩
      · intro kv hm c hc
        rcases List.mem_append.mp hm with h1 | h1
        · exact h.cells_bound kv h1 c hc
        · rcases List.mem_singleton.mp h1 with rfl
          exact hball c hc
      · intro p w hw
        rcases mem_updPiece_elim hw with h1 | ⟨rfl, rfl⟩
        · rcases h.bp_sub p w h1 with ⟨cells, hm⟩
          exact ⟨cells, List.mem_append_left _ hm⟩
        · exact ⟨_, hnewkv⟩
      · intro kv hm
        rcases List.mem_append.mp hm with h1 | h1
        · exact sub_updPiece _ _ _ _ (h.bp_mem kv h1)
        · rcases List.mem_singleton.mp h1 with rfl
          simp only [updPiece_same]
          exact self_mem_addIfNew _ _
      · exact updPiece_nodup _ _ _ h.bp_nodup
      · intro cv hcv w hw
        rcases bcAddAll_elim hcv w hw with ⟨vs₁, hm, hw₁⟩ | ⟨rfl, hc⟩
        · rcases h.bc_sub (cv.1, vs₁) hm w hw₁ with ⟨kv, hkm, hkv2, hcm⟩
          exact ⟨kv, List.mem_append_left _ hkm, hkv2, hcm⟩
        · exact ⟨_, hnewkv, rfl, hc⟩
      · intro kv hm c hc
        rcases List.mem_append.mp hm with h1 | h1
        · rcases h.bc_mem kv h1 c hc with ⟨vs, hvs, hv⟩
          rcases bcAddAll_mono_entry _ _ hvs with ⟨vs₁, hm₁, hs₁⟩
          exact ⟨vs₁, hm₁, hs₁ hv⟩
        · rcases List.mem_singleton.mp h1 with rfl
          exact bcAddAll_cover _ _ hc
  · exact h

theorem plInv_foldl (l : List (Cell × ℕ × List Cell × Cell)) (s : PlSt)
    (h : PlInv s) : PlInv (l.foldl plStep s) := by
  induction l generalizing s with
  | nil => exact h
  | cons t l ih => exact ih _ (plInv_step s t h)

/-- The invariant at the final state of the enumeration. -/
theorem somaInv : PlInv generate_placements :=
  plInv_foldl _ _ plInv_init

/-- `generate_placements` unfolded to its fold (recorded once; the
definition is made irreducible below so that unification never attempts
to evaluate the fold). -/
theorem gp_eq_foldl : generate_placements = allTuples.foldl plStep initSt := rfl

attribute [irreducible] generate_placements

/-! ### Reachability: every admissible placement key ends up stored -/

theorem plStep_plc_mono (s : PlSt) (t : Cell × ℕ × List Cell × Cell) :
    ∀ kv ∈ s.plc, kv ∈ (plStep s t).plc := by
  intro kv hm
  show kv ∈ (
    if (translateTo t.1 t.2.2.2 t.2.2.1).all cellInCube = true then
      match findVar s.plc (t.2.1, translateTo t.1 t.2.2.2 t.2.2.1) with
      | some v =>
        { s with byPiece := updPiece s.byPiece t.2.1 v,
                 byCell := bcAddAll s.byCell (translateTo t.1 t.2.2.2 t.2.2.1) v }
      | none =>
        { plc := s.plc ++ [((t.2.1, translateTo t.1 t.2.2.2 t.2.2.1), s.ctr)],
          byPiece := updPiece s.byPiece t.2.1 s.ctr,
          byCell := bcAddAll s.byCell (translateTo t.1 t.2.2.2 t.2.2.1) s.ctr,
          ctr := s.ctr + 1 }
    else s).plc
  split
  · split
    · exact hm
    · exact List.mem_append_left _ hm
  · exact hm

theorem plStep_key_mono (s : PlSt) (t : Cell × ℕ × List Cell × Cell)
    {key : PKey} (h : key ∈ s.plc.map Prod.fst) :
    key ∈ (plStep s t).plc.map Prod.fst := by
  rcases List.mem_map.mp h with ⟨kv, hm, rfl⟩
  exact List.mem_map.mpr ⟨kv, plStep_plc_mono s t kv hm, rfl⟩

theorem plStep_establishes (s : PlSt) (t : Cell × ℕ × List Cell × Cell)
    (hb : (translateTo t.1 t.2.2.2 t.2.2.1).all cellInCube = true) :
    (t.2.1, translateTo t.1 t.2.2.2 t.2.2.1) ∈ (plStep s t).plc.map Prod.fst := by
  show _ ∈ (
    if (translateTo t.1 t.2.2.2 t.2.2.1).all cellInCube = true then
      match findVar s.plc (t.2.1, translateTo t.1 t.2.2.2 t.2.2.1) with
      | some v =>
        { s with byPiece := updPiece s.byPiece t.2.1 v,
                 byCell := bcAddAll s.byCell (translateTo t.1 t.2.2.2 t.2.2.1) v }
      | none =>
        { plc := s.plc ++ [((t.2.1, translateTo t.1 t.2.2.2 t.2.2.1), s.ctr)],
          byPiece := updPiece s.byPiece t.2.1 s.ctr,
          byCell := bcAddAll s.byCell (translateTo t.1 t.2.2.2 t.2.2.1) s.ctr,
          ctr := s.ctr + 1 }
    else s).plc.map Prod.fst
  rw [if_pos hb]
  split
  · rename_i v hfv
    exact List.mem_map.mpr ⟨_, findVar_some_mem hfv, rfl⟩
  · simp

theorem foldl_preserve {σ τ : Type} (f : σ → τ → σ) (P : σ → Prop)
    (mono : ∀ s u, P s → P (f s u)) :
    ∀ (l : List τ) (s : σ), P s → P (l.foldl f s) := by
  intro l
  induction l with
  | nil => exact fun s h => h
  | cons u l ih => exact fun s h => ih _ (mono s u h)

theorem foldl_reach {σ τ : Type} (f : σ → τ → σ) (P : σ → Prop)
    (mono : ∀ s u, P s → P (f s u)) (t : τ) (est : ∀ s, P (f s t)) :
    ∀ (l : List τ) (s : σ), t ∈ l → P (l.foldl f s) := by
  intro l
  induction l with
  | nil => intro s h; cases h
  | cons u l ih =>
      intro s h
      rcases List.mem_cons.mp h with rfl | h1
      · exact foldl_preserve f P mono l _ (est s)
      · exact ih _ h1

/-- Any in-bounds translate of a generated orientation, anchored in the
volume, is stored as a key of the final `placements` dictionary. -/
theorem key_present {anchor : Cell} {piece : ℕ} {orient : List Cell}
    {base : Cell} (h1 : anchor ∈ coordinates) (h2 : piece < 7)
    (h3 : orient ∈ orientationsList.getD piece []) (h4 : base ∈ orient)
    (h5 : (translateTo anchor base orient).all cellInCube = true) :
    (piece, translateTo anchor base orient) ∈
      generate_placements.plc.map Prod.fst := by
  have htup : (anchor, piece, orient, base) ∈ allTuples := by
    unfold allTuples
    exact List.mem_flatMap.mpr ⟨anchor, h1,
      List.mem_flatMap.mpr ⟨piece, List.mem_range.mpr h2,
        List.mem_flatMap.mpr ⟨orient, h3,
          List.mem_map.mpr ⟨base, h4, rfl⟩⟩⟩⟩
  have hplc : generate_placements.plc = (allTuples.foldl plStep initSt).plc :=
    congrArg PlSt.plc gp_eq_foldl
  rw [hplc]
  exact foldl_reach plStep
    (fun s => (piece, translateTo anchor base orient) ∈ s.plc.map Prod.fst)
    (fun s u h => plStep_key_mono s u h)
    (anchor, piece, orient, base)
    (fun s => plStep_establishes s (anchor, piece, orient, base) h5)
    allTuples initSt htup

/-- Entries of an association list are determined by any component on
which the list has no duplicates. -/
theorem map_nodup_entry_unique {α β : Type} {f : α → β} {l : List α}
    (h : (l.map f).Nodup) :
    ∀ e1 ∈ l, ∀ e2 ∈ l, f e1 = f e2 → e1 = e2 := by
  induction l with
  | nil => intro e1 h1; cases h1
  | cons hd rest ih =>
      simp only [List.map_cons, List.nodup_cons] at h
      intro e1 h1 e2 h2 hf
      rcases List.mem_cons.mp h1 with rfl | h1'
      · rcases List.mem_cons.mp h2 with rfl | h2'
        · rfl
        · exact absurd (List.mem_map.mpr ⟨e2, h2', hf.symm⟩) h.1
      · rcases List.mem_cons.mp h2 with rfl | h2'
        · exact absurd (List.mem_map.mpr ⟨e1, h1', hf⟩) h.1
        · exact ih h.2 e1 h1' e2 h2' hf

/-! ## Claims C6 and C7: the placements mapping -/

/-- **C6.** The `placements` mapping is a bijection from its
`(piece, cell-set)` keys onto `{1, …, num_vars}`: keys are unique (a
cell-set reached from several (anchor, reference-cell) pairs is stored
once, with a single variable), variables are unique, and the variable
ids are exactly `1, 2, …, num_vars` in insertion order. -/
theorem C6_variable_bijection :
    (generate_placements.plc.map Prod.fst).Nodup
    ∧ (generate_placements.plc.map Prod.snd).Nodup
    ∧ generate_placements.plc.map Prod.snd =
        List.range' 1 (generate_placements.ctr - 1)
    ∧ generate_placements.ctr - 1 = generate_placements.plc.length
    ∧ (∀ v ∈ generate_placements.plc.map Prod.snd,
        1 ≤ v ∧ v ≤ generate_placements.ctr - 1) := by
  have hI := somaInv
  have hnum : generate_placements.ctr - 1 = generate_placements.plc.length := by
    rw [hI.ctr_eq, Nat.add_sub_cancel]
  have hseq : generate_placements.plc.map Prod.snd =
      List.range' 1 (generate_placements.ctr - 1) := by
    rw [hnum]
    exact hI.vars_seq
  refine ⟨hI.keys_nodup, ?_, hseq, hnum, ?_⟩
  · rw [hseq]
    apply List.nodup_range'
    exact Nat.one_pos
  · intro v hv
    rw [hseq, hnum] at hv
    have h := List.mem_range'_1.mp hv
    refine ⟨h.1, ?_⟩
    rw [hnum]
    exact Nat.lt_one_add_iff.mp h.2

/-- **C7.** Every cell of every placement key stored by the enumerator
lies inside the cube: all three coordinates are in `[0, 3)` (this is
what `cellInCube` tests, as the second conjunct spells out). -/
theorem C7_placements_in_bounds :
    generate_placements.plc.all (fun kv => kv.1.2.all cellInCube) = true
    ∧ ∀ c : Cell, cellInCube c = true ↔
        (0 ≤ c.1 ∧ c.1 < 3 ∧ 0 ≤ c.2.1 ∧ c.2.1 < 3 ∧ 0 ≤ c.2.2 ∧ c.2.2 < 3) := by
  constructor
  · rw [List.all_eq_true]
    intro kv hm
    rw [List.all_eq_true]
    exact somaInv.cells_bound kv hm
  · intro c
    simp [cellInCube]

/-! ## A concrete exact cover: seven placements partitioning the cube

For claims C9 and C4 we exhibit, for each of the seven pieces, one
placement of `generate_placements` (given by anchor, reference cell and
a generated orientation) such that the seven occupied cell-sets
partition the 27 cube cells. -/

def sOrient0 : List Cell := [((0 : ℤ), (0 : ℤ), (0 : ℤ)), ((1 : ℤ), (0 : ℤ), (0 : ℤ)), ((1 : ℤ), (1 : ℤ), (0 : ℤ)), ((2 : ℤ), (1 : ℤ), (0 : ℤ))]

def sCells0 : List Cell := [((0 : ℤ), (0 : ℤ), (0 : ℤ)), ((1 : ℤ), (0 : ℤ), (0 : ℤ)), ((1 : ℤ), (1 : ℤ), (0 : ℤ)), ((2 : ℤ), (1 : ℤ), (0 : ℤ))]

def sOrient1 : List Cell := [((0 : ℤ), (0 : ℤ), (0 : ℤ)), ((0 : ℤ), (1 : ℤ), (0 : ℤ)), ((0 : ℤ), (1 : ℤ), (1 : ℤ)), ((1 : ℤ), (1 : ℤ), (0 : ℤ))]

def sCells1 : List Cell := [((0 : ℤ), (0 : ℤ), (1 : ℤ)), ((0 : ℤ), (1 : ℤ), (1 : ℤ)), ((0 : ℤ), (1 : ℤ), (2 : ℤ)), ((1 : ℤ), (1 : ℤ), (1 : ℤ))]

def sOrient2 : List Cell := [((0 : ℤ), (0 : ℤ), (0 : ℤ)), ((1 : ℤ), (0 : ℤ), (0 : ℤ)), ((1 : ℤ), (1 : ℤ), (0 : ℤ)), ((2 : ℤ), (0 : ℤ), (0 : ℤ))]

def sCells2 : List Cell := [((0 : ℤ), (0 : ℤ), (2 : ℤ)), ((1 : ℤ), (0 : ℤ), (2 : ℤ)), ((1 : ℤ), (1 : ℤ), (2 : ℤ)), ((2 : ℤ), (0 : ℤ), (2 : ℤ))]

def sOrient3 : List Cell := [((0 : ℤ), (0 : ℤ), (0 : ℤ)), ((0 : ℤ), (0 : ℤ), (1 : ℤ)), ((1 : ℤ), (-1 : ℤ), (1 : ℤ)), ((1 : ℤ), (0 : ℤ), (1 : ℤ))]

def sCells3 : List Cell := [((1 : ℤ), (2 : ℤ), (1 : ℤ)), ((1 : ℤ), (2 : ℤ), (2 : ℤ)), ((2 : ℤ), (1 : ℤ), (2 : ℤ)), ((2 : ℤ), (2 : ℤ), (2 : ℤ))]

def sOrient4 : List Cell := [((0 : ℤ), (0 : ℤ), (0 : ℤ)), ((1 : ℤ), (-1 : ℤ), (1 : ℤ)), ((1 : ℤ), (0 : ℤ), (0 : ℤ)), ((1 : ℤ), (0 : ℤ), (1 : ℤ))]

def sCells4 : List Cell := [((1 : ℤ), (2 : ℤ), (0 : ℤ)), ((2 : ℤ), (1 : ℤ), (1 : ℤ)), ((2 : ℤ), (2 : ℤ), (0 : ℤ)), ((2 : ℤ), (2 : ℤ), (1 : ℤ))]

def sOrient5 : List Cell := [((0 : ℤ), (0 : ℤ), (0 : ℤ)), ((0 : ℤ), (1 : ℤ), (0 : ℤ)), ((0 : ℤ), (1 : ℤ), (1 : ℤ)), ((0 : ℤ), (1 : ℤ), (2 : ℤ))]

def sCells5 : List Cell := [((0 : ℤ), (1 : ℤ), (0 : ℤ)), ((0 : ℤ), (2 : ℤ), (0 : ℤ)), ((0 : ℤ), (2 : ℤ), (1 : ℤ)), ((0 : ℤ), (2 : ℤ), (2 : ℤ))]

def sOrient6 : List Cell := [((0 : ℤ), (0 : ℤ), (0 : ℤ)), ((1 : ℤ), (0 : ℤ), (-1 : ℤ)), ((1 : ℤ), (0 : ℤ), (0 : ℤ))]

def sCells6 : List Cell := [((1 : ℤ), (0 : ℤ), (1 : ℤ)), ((2 : ℤ), (0 : ℤ), (0 : ℤ)), ((2 : ℤ), (0 : ℤ), (1 : ℤ))]

/-- The placement keys of the chosen exact cover, one per piece. -/
def solKeys : List PKey :=
  [(0, sCells0), (1, sCells1), (2, sCells2), (3, sCells3), (4, sCells4),
   (5, sCells5), (6, sCells6)]

theorem tmem_id : identity ∈ transforms :=
  List.mem_cons_self _ _

theorem tmem_rx : rotate_x ∈ transforms :=
  List.mem_cons_of_mem _ (List.mem_cons_self _ _)

theorem tmem_ry : rotate_y ∈ transforms :=
  List.mem_cons_of_mem _ (List.mem_cons_of_mem _ (List.mem_cons_self _ _))

theorem tmem_rz : rotate_z ∈ transforms :=
  List.mem_cons_of_mem _ (List.mem_cons_of_mem _
    (List.mem_cons_of_mem _ (List.mem_cons_self _ _)))

theorem sOrient0_mem : sOrient0 ∈ generate_rotations zPiece := by
  rw [mem_generate_rotations]
  have h : canon (identity (identity (identity (identity (identity zPiece)))))
      = sOrient0 := by decide
  exact h ▸ mem_seqResults_of zPiece identity identity identity identity identity
    tmem_id tmem_id tmem_id tmem_id tmem_id

theorem sOrient1_mem : sOrient1 ∈ generate_rotations pPiece := by
  rw [mem_generate_rotations]
  have h : canon (identity (identity (identity (identity (identity pPiece)))))
      = sOrient1 := by decide
  exact h ▸ mem_seqResults_of pPiece identity identity identity identity identity
    tmem_id tmem_id tmem_id tmem_id tmem_id

theorem sOrient2_mem : sOrient2 ∈ generate_rotations tPiece := by
  rw [mem_generate_rotations]
  have h : canon (identity (identity (identity (identity (rotate_z tPiece)))))
      = sOrient2 := by decide
  exact h ▸ mem_seqResults_of tPiece identity identity identity identity rotate_z
    tmem_id tmem_id tmem_id tmem_id tmem_rz

theorem sOrient3_mem : sOrient3 ∈ generate_rotations bPiece := by
  rw [mem_generate_rotations]
  have h : canon (identity (identity (rotate_x (rotate_x (rotate_z bPiece)))))
      = sOrient3 := by decide
  exact h ▸ mem_seqResults_of bPiece identity identity rotate_x rotate_x rotate_z
    tmem_id tmem_id tmem_rx tmem_rx tmem_rz

theorem sOrient4_mem : sOrient4 ∈ generate_rotations aPiece := by
  rw [mem_generate_rotations]
  have h : canon (identity (identity (rotate_x (rotate_y (rotate_y aPiece)))))
      = sOrient4 := by decide
  exact h ▸ mem_seqResults_of aPiece identity identity rotate_x rotate_y rotate_y
    tmem_id tmem_id tmem_rx tmem_ry tmem_ry

theorem sOrient5_mem : sOrient5 ∈ generate_rotations lPiece := by
  rw [mem_generate_rotations]
  have h : canon (identity (identity (rotate_x (rotate_x (rotate_y lPiece)))))
      = sOrient5 := by decide
  exact h ▸ mem_seqResults_of lPiece identity identity rotate_x rotate_x rotate_y
    tmem_id tmem_id tmem_rx tmem_rx tmem_ry

theorem sOrient6_mem : sOrient6 ∈ generate_rotations vPiece := by
  rw [mem_generate_rotations]
  have h : canon (identity (identity (identity (rotate_x (rotate_z vPiece)))))
      = sOrient6 := by decide
  exact h ▸ mem_seqResults_of vPiece identity identity identity rotate_x rotate_z
    tmem_id tmem_id tmem_id tmem_rx tmem_rz

/-- `orientations` unfolded to its seven entries (the orientation lists
stay unevaluated). -/
theorem orientationsList_eq :
    orientationsList = [generate_rotations zPiece, generate_rotations pPiece,
      generate_rotations tPiece, generate_rotations bPiece,
      generate_rotations aPiece, generate_rotations lPiece,
      generate_rotations vPiece] := by
  simp only [orientationsList, pieces, List.map_cons, List.map_nil]

theorem getD7_0 {α : Type} (a0 a1 a2 a3 a4 a5 a6 d : α) :
    [a0, a1, a2, a3, a4, a5, a6].getD 0 d = a0 := rfl

theorem getD7_1 {α : Type} (a0 a1 a2 a3 a4 a5 a6 d : α) :
    [a0, a1, a2, a3, a4, a5, a6].getD 1 d = a1 := rfl

theorem getD7_2 {α : Type} (a0 a1 a2 a3 a4 a5 a6 d : α) :
    [a0, a1, a2, a3, a4, a5, a6].getD 2 d = a2 := rfl

theorem getD7_3 {α : Type} (a0 a1 a2 a3 a4 a5 a6 d : α) :
    [a0, a1, a2, a3, a4, a5, a6].getD 3 d = a3 := rfl

theorem getD7_4 {α : Type} (a0 a1 a2 a3 a4 a5 a6 d : α) :
    [a0, a1, a2, a3, a4, a5, a6].getD 4 d = a4 := rfl

theorem getD7_5 {α : Type} (a0 a1 a2 a3 a4 a5 a6 d : α) :
    [a0, a1, a2, a3, a4, a5, a6].getD 5 d = a5 := rfl

theorem getD7_6 {α : Type} (a0 a1 a2 a3 a4 a5 a6 d : α) :
    [a0, a1, a2, a3, a4, a5, a6].getD 6 d = a6 := rfl

theorem solKey0_present :
    ((0 : ℕ), sCells0) ∈ generate_placements.plc.map Prod.fst := by
  have hgd : orientationsList.getD 0 [] = generate_rotations zPiece := by
    rw [orientationsList_eq]
    exact getD7_0 _ _ _ _ _ _ _ _
  have h3 : sOrient0 ∈ orientationsList.getD 0 [] := by
    rw [hgd]; exact sOrient0_mem
  have ht : translateTo ((0 : ℤ), (0 : ℤ), (0 : ℤ)) ((0 : ℤ), (0 : ℤ), (0 : ℤ))
      sOrient0 = sCells0 := by decide
  have h := @key_present ((0 : ℤ), (0 : ℤ), (0 : ℤ)) 0 sOrient0
    ((0 : ℤ), (0 : ℤ), (0 : ℤ)) (by decide) (by decide) h3 (by decide) (by decide)
  rw [ht] at h
  exact h

theorem solKey1_present :
    ((1 : ℕ), sCells1) ∈ generate_placements.plc.map Prod.fst := by
  have hgd : orientationsList.getD 1 [] = generate_rotations pPiece := by
    rw [orientationsList_eq]
    exact getD7_1 _ _ _ _ _ _ _ _
  have h3 : sOrient1 ∈ orientationsList.getD 1 [] := by
    rw [hgd]; exact sOrient1_mem
  have ht : translateTo ((0 : ℤ), (0 : ℤ), (1 : ℤ)) ((0 : ℤ), (0 : ℤ), (0 : ℤ))
      sOrient1 = sCells1 := by decide
  have h := @key_present ((0 : ℤ), (0 : ℤ), (1 : ℤ)) 1 sOrient1
    ((0 : ℤ), (0 : ℤ), (0 : ℤ)) (by decide) (by decide) h3 (by decide) (by decide)
  rw [ht] at h
  exact h

theorem solKey2_present :
    ((2 : ℕ), sCells2) ∈ generate_placements.plc.map Prod.fst := by
  have hgd : orientationsList.getD 2 [] = generate_rotations tPiece := by
    rw [orientationsList_eq]
    exact getD7_2 _ _ _ _ _ _ _ _
  have h3 : sOrient2 ∈ orientationsList.getD 2 [] := by
    rw [hgd]; exact sOrient2_mem
  have ht : translateTo ((0 : ℤ), (0 : ℤ), (2 : ℤ)) ((0 : ℤ), (0 : ℤ), (0 : ℤ))
      sOrient2 = sCells2 := by decide
  have h := @key_present ((0 : ℤ), (0 : ℤ), (2 : ℤ)) 2 sOrient2
    ((0 : ℤ), (0 : ℤ), (0 : ℤ)) (by decide) (by decide) h3 (by decide) (by decide)
  rw [ht] at h
  exact h

theorem solKey3_present :
    ((3 : ℕ), sCells3) ∈ generate_placements.plc.map Prod.fst := by
  have hgd : orientationsList.getD 3 [] = generate_rotations bPiece := by
    rw [orientationsList_eq]
    exact getD7_3 _ _ _ _ _ _ _ _
  have h3 : sOrient3 ∈ orientationsList.getD 3 [] := by
    rw [hgd]; exact sOrient3_mem
  have ht : translateTo ((1 : ℤ), (2 : ℤ), (1 : ℤ)) ((0 : ℤ), (0 : ℤ), (0 : ℤ))
      sOrient3 = sCells3 := by decide
  have h := @key_present ((1 : ℤ), (2 : ℤ), (1 : ℤ)) 3 sOrient3
    ((0 : ℤ), (0 : ℤ), (0 : ℤ)) (by decide) (by decide) h3 (by decide) (by decide)
  rw [ht] at h
  exact h

theorem solKey4_present :
    ((4 : ℕ), sCells4) ∈ generate_placements.plc.map Prod.fst := by
  have hgd : orientationsList.getD 4 [] = generate_rotations aPiece := by
    rw [orientationsList_eq]
    exact getD7_4 _ _ _ _ _ _ _ _
  have h3 : sOrient4 ∈ orientationsList.getD 4 [] := by
    rw [hgd]; exact sOrient4_mem
  have ht : translateTo ((1 : ℤ), (2 : ℤ), (0 : ℤ)) ((0 : ℤ), (0 : ℤ), (0 : ℤ))
      sOrient4 = sCells4 := by decide
  have h := @key_present ((1 : ℤ), (2 : ℤ), (0 : ℤ)) 4 sOrient4
    ((0 : ℤ), (0 : ℤ), (0 : ℤ)) (by decide) (by decide) h3 (by decide) (by decide)
  rw [ht] at h
  exact h

theorem solKey5_present :
    ((5 : ℕ), sCells5) ∈ generate_placements.plc.map Prod.fst := by
  have hgd : orientationsList.getD 5 [] = generate_rotations lPiece := by
    rw [orientationsList_eq]
    exact getD7_5 _ _ _ _ _ _ _ _
  have h3 : sOrient5 ∈ orientationsList.getD 5 [] := by
    rw [hgd]; exact sOrient5_mem
  have ht : translateTo ((0 : ℤ), (1 : ℤ), (0 : ℤ)) ((0 : ℤ), (0 : ℤ), (0 : ℤ))
      sOrient5 = sCells5 := by decide
  have h := @key_present ((0 : ℤ), (1 : ℤ), (0 : ℤ)) 5 sOrient5
    ((0 : ℤ), (0 : ℤ), (0 : ℤ)) (by decide) (by decide) h3 (by decide) (by decide)
  rw [ht] at h
  exact h

theorem solKey6_present :
    ((6 : ℕ), sCells6) ∈ generate_placements.plc.map Prod.fst := by
  have hgd : orientationsList.getD 6 [] = generate_rotations vPiece := by
    rw [orientationsList_eq]
    exact getD7_6 _ _ _ _ _ _ _ _
  have h3 : sOrient6 ∈ orientationsList.getD 6 [] := by
    rw [hgd]; exact sOrient6_mem
  have ht : translateTo ((1 : ℤ), (0 : ℤ), (1 : ℤ)) ((0 : ℤ), (0 : ℤ), (0 : ℤ))
      sOrient6 = sCells6 := by decide
  have h := @key_present ((1 : ℤ), (0 : ℤ), (1 : ℤ)) 6 sOrient6
    ((0 : ℤ), (0 : ℤ), (0 : ℤ)) (by decide) (by decide) h3 (by decide) (by decide)
  rw [ht] at h
  exact h

theorem solKeys_present :
    ∀ k ∈ solKeys, k ∈ generate_placements.plc.map Prod.fst := by
  intro k hk
  simp only [solKeys, List.mem_cons, List.not_mem_nil, or_false] at hk
  rcases hk with rfl | rfl | rfl | rfl | rfl | rfl | rfl
  · exact solKey0_present
  · exact solKey1_present
  · exact solKey2_present
  · exact solKey3_present
  · exact solKey4_present
  · exact solKey5_present
  · exact solKey6_present

/-- The seven chosen cell-sets leave no cube cell uncovered. -/
theorem solKeys_cover : ∀ c ∈ coordinates, ∃ k ∈ solKeys, c ∈ k.2 := by decide

/-- Distinct chosen keys never share a cube cell. -/
theorem solKeys_disjoint :
    ∀ k1 ∈ solKeys, ∀ k2 ∈ solKeys, ∀ c ∈ k1.2, c ∈ k2.2 → k1 = k2 := by decide

/-- Each piece index below 7 appears among the chosen keys. -/
theorem solKeys_pieces : ∀ p ∈ List.range 7, ∃ k ∈ solKeys, k.1 = p := by decide

/-- The chosen keys carry pairwise distinct piece indices. -/
theorem solKeys_fst_inj :
    ∀ k1 ∈ solKeys, ∀ k2 ∈ solKeys, k1.1 = k2.1 → k1 = k2 := by decide

/-! ## Variable and group facts shared by C9 and C4 -/

/-- Every variable id stored in `placements` lies in `[1, num_vars]`. -/
theorem var_in_range {v : ℕ} (h : v ∈ generate_placements.plc.map Prod.snd) :
    1 ≤ v ∧ v ≤ generate_placements.ctr - 1 := by
  have hseq := somaInv.vars_seq
  rw [hseq] at h
  have h1 := List.mem_range'_1.mp h
  have hc : generate_placements.ctr - 1 = generate_placements.plc.length := by
    rw [somaInv.ctr_eq, Nat.add_sub_cancel]
  refine ⟨h1.1, ?_⟩
  rw [hc]
  exact Nat.lt_one_add_iff.mp h1.2

/-- The stored variable ids are pairwise distinct. -/
theorem plc_snd_nodup : (generate_placements.plc.map Prod.snd).Nodup := by
  rw [somaInv.vars_seq]
  apply List.nodup_range'
  exact Nat.one_pos

/-- `coordinates`, evaluated: the 27 cube cells in loop order. -/
theorem coordinates_eq : coordinates =
    [(0, 0, 0), (0, 0, 1), (0, 0, 2), (0, 1, 0), (0, 1, 1), (0, 1, 2),
     (0, 2, 0), (0, 2, 1), (0, 2, 2), (1, 0, 0), (1, 0, 1), (1, 0, 2),
     (1, 1, 0), (1, 1, 1), (1, 1, 2), (1, 2, 0), (1, 2, 1), (1, 2, 2),
     (2, 0, 0), (2, 0, 1), (2, 0, 2), (2, 1, 0), (2, 1, 1), (2, 1, 2),
     (2, 2, 0), (2, 2, 1), (2, 2, 2)] := by decide

/-- `coordinates` lists exactly the cells accepted by the bounds test. -/
theorem mem_coordinates_iff (c : Cell) :
    c ∈ coordinates ↔ cellInCube c = true := by
  rw [coordinates_eq]
  rcases c with ⟨cx, cy, cz⟩
  constructor
  · intro h
    fin_cases h <;> decide
  · intro h
    simp only [cellInCube, decide_eq_true_eq] at h
    obtain ⟨h1, h2, h3, h4, h5, h6⟩ := h
    interval_cases cx <;> interval_cases cy <;> interval_cases cz <;> decide

/-- Every key of the `by_cell` index is an in-bounds cube cell. -/
theorem byCell_key_inCube :
    ∀ cv ∈ generate_placements.byCell, cellInCube cv.1 = true := by
  intro cv hcv
  rcases List.exists_mem_of_ne_nil _ (somaInv.bc_vs_ne_nil cv hcv) with ⟨w, hw⟩
  rcases somaInv.bc_sub cv hcv w hw with ⟨kv, hkv, hsnd, hc⟩
  exact somaInv.cells_bound kv hkv cv.1 hc

/-- The `by_cell` association list holds one entry per cell. -/
theorem byCell_entry_unique {e1 e2 : Cell × List ℕ}
    (h1 : e1 ∈ generate_placements.byCell)
    (h2 : e2 ∈ generate_placements.byCell) (h : e1.1 = e2.1) : e1 = e2 :=
  map_nodup_entry_unique somaInv.bc_keys_nodup e1 h1 e2 h2 h

/-- Every cube cell has a non-empty group in the `by_cell` index. -/
theorem cell_has_group : ∀ c ∈ coordinates,
    ∃ vs, (c, vs) ∈ generate_placements.byCell ∧ vs ≠ [] := by
  intro c hc
  rcases solKeys_cover c hc with ⟨k, hk, hck⟩
  rcases List.mem_map.mp (solKeys_present k hk) with ⟨kv, hkvm, hfst⟩
  have hck2 : c ∈ kv.1.2 := by rw [hfst]; exact hck
  rcases somaInv.bc_mem kv hkvm c hck2 with ⟨vs, hvs, hin⟩
  exact ⟨vs, hvs, List.ne_nil_of_mem hin⟩

/-- Every piece group handed to the encoder is non-empty. -/
theorem piece_group_nonempty :
    ∀ p, p < 7 → generate_placements.byPiece p ≠ [] := by
  intro p hp
  rcases solKeys_pieces p (List.mem_range.mpr hp) with ⟨k, hk, hkp⟩
  rcases List.mem_map.mp (solKeys_present k hk) with ⟨kv, hkvm, hfst⟩
  have hm := somaInv.bp_mem kv hkvm
  rw [hfst, hkp] at hm
  exact List.ne_nil_of_mem hm

/-! ## Evaluation of the encoder's clauses -/

theorem mem_exactly_one_ne_nil {vars : List ℕ} {cl : List ℤ}
    (h : cl ∈ exactly_one vars) : cl ≠ [] := by
  rcases vars with _ | ⟨v, rest⟩
  · simp [exactly_one] at h
  · have h2 : cl ∈ ((v :: rest).map fun (x : ℕ) => (x : ℤ))
        :: pairsFrom (v :: rest) := h
    rcases List.mem_cons.mp h2 with rfl | h1
    · simp
    · rcases (mem_pairsFrom _ _).mp h1 with ⟨x, y, hxy, rfl⟩
      simp

theorem mem_exactly_one_lits {vars : List ℕ} {cl : List ℤ}
    (h : cl ∈ exactly_one vars) :
    ∀ lit ∈ cl, ∃ v ∈ vars, lit = (v : ℤ) ∨ lit = -(v : ℤ) := by
  rcases vars with _ | ⟨v, rest⟩
  · simp [exactly_one] at h
  · have h2 : cl ∈ ((v :: rest).map fun (x : ℕ) => (x : ℤ))
        :: pairsFrom (v :: rest) := h
    rcases List.mem_cons.mp h2 with rfl | h1
    · intro lit hlit
      rcases List.mem_map.mp hlit with ⟨x, hx, rfl⟩
      exact ⟨x, hx, Or.inl rfl⟩
    · rcases (mem_pairsFrom _ _).mp h1 with ⟨x, y, hxy, rfl⟩
      have hsub := hxy.subset
      intro lit hlit
      rcases List.mem_cons.mp hlit with rfl | hlit
      · exact ⟨x, hsub (List.mem_cons_self _ _), Or.inr rfl⟩
      · rcases List.mem_singleton.mp hlit with rfl
        exact ⟨y, hsub (List.mem_cons_of_mem _ (List.mem_cons_self _ _)),
          Or.inr rfl⟩

theorem pairs_sub_exactly_one {vars : List ℕ} (h : vars ≠ []) {cl : List ℤ}
    (hcl : cl ∈ pairsFrom vars) : cl ∈ exactly_one vars := by
  rcases vars with _ | ⟨v, rest⟩
  · exact absurd rfl h
  · exact List.mem_cons_of_mem _ hcl

theorem evalLit_pos (a : ℕ → Bool) (v : ℕ) (hv : 1 ≤ v) :
    evalLit a ((v : ℕ) : ℤ) = a v := by
  have h0 : (0 : ℤ) < (v : ℤ) := by exact_mod_cast hv
  have h1 : (((v : ℕ) : ℤ)).toNat = v := by omega
  rw [evalLit, if_pos h0, h1]

theorem evalLit_neg_coe (a : ℕ → Bool) (v : ℕ) :
    evalLit a (-((v : ℕ) : ℤ)) = ! a v := by
  have h0 : ¬ (0 : ℤ) < -((v : ℕ) : ℤ) := by omega
  rw [evalLit, if_neg h0]
  have h1 : (-(-((v : ℕ) : ℤ))).toNat = v := by omega
  rw [h1]

/-- Two distinct members of a list form a two-element sublist in one of
the two orders. -/
theorem pair_sublist_of_mem_ne {x y : ℕ} {l : List ℕ} (hx : x ∈ l)
    (hy : y ∈ l) (hne : x ≠ y) :
    [x, y].Sublist l ∨ [y, x].Sublist l := by
  induction l with
  | nil => cases hx
  | cons u l ih =>
      rcases List.mem_cons.mp hx with rfl | hx1
      · have hy1 : y ∈ l := by
          rcases List.mem_cons.mp hy with h | h
          · exact absurd h.symm hne
          · exact h
        exact Or.inl (List.cons_sublist_cons.mpr (List.singleton_sublist.mpr hy1))
      · rcases List.mem_cons.mp hy with rfl | hy1
        · exact Or.inr (List.cons_sublist_cons.mpr (List.singleton_sublist.mpr hx1))
        · rcases ih hx1 hy1 with h | h
          · exact Or.inl (h.cons u)
          · exact Or.inr (h.cons u)

/-- If an assignment makes exactly one variable of a duplicate-free group
true, every clause the encoder emits for the group evaluates to true. -/
theorem exactly_one_true_clauses (a : ℕ → Bool) (l : List ℕ)
    (hpos : ∀ v ∈ l, 1 ≤ v) (hnd : l.Nodup)
    (hex : ∃ v ∈ l, a v = true)
    (huniq : ∀ v ∈ l, ∀ w ∈ l, a v = true → a w = true → v = w) :
    ∀ cl ∈ exactly_one l, evalClause a cl = true := by
  intro cl hcl
  rcases l with _ | ⟨u, rest⟩
  · simp [exactly_one] at hcl
  · have h2 : cl ∈ ((u :: rest).map fun (x : ℕ) => (x : ℤ))
        :: pairsFrom (u :: rest) := hcl
    rcases List.mem_cons.mp h2 with rfl | h1
    · rcases hex with ⟨v, hv, hav⟩
      rw [evalClause, List.any_eq_true]
      refine ⟨(v : ℤ), List.mem_map.mpr ⟨v, hv, rfl⟩, ?_⟩
      rw [evalLit_pos a v (hpos v hv), hav]
    · rcases (mem_pairsFrom _ _).mp h1 with ⟨x, y, hxy, rfl⟩
      have hxm := hxy.subset (List.mem_cons_self _ _)
      have hym := hxy.subset (List.mem_cons_of_mem _ (List.mem_cons_self _ _))
      have hne : x ≠ y := by
        intro he
        subst he
        have hp := hnd.sublist hxy
        simp at hp
      rw [evalClause, List.any_eq_true]
      cases hax : a x with
      | false =>
          refine ⟨-(x : ℤ), List.mem_cons_self _ _, ?_⟩
          rw [evalLit_neg_coe, hax]
          rfl
      | true =>
          have hay : a y = false := by
            cases hy2 : a y
            · rfl
            · exact absurd (huniq x hxm y hym hax hy2) hne
          refine ⟨-(y : ℤ), List.mem_cons_of_mem _ (List.mem_cons_self _ _), ?_⟩
          rw [evalLit_neg_coe, hay]
          rfl

/-- If every variable of a group is false, the group's at-least-one
clause evaluates to false. -/
theorem big_clause_false (a : ℕ → Bool) (l : List ℕ)
    (hpos : ∀ v ∈ l, 1 ≤ v) (hallf : ∀ v ∈ l, a v = false) :
    evalClause a (l.map fun (x : ℕ) => (x : ℤ)) = false := by
  rw [evalClause, List.any_eq_false]
  intro lit hlit
  rcases List.mem_map.mp hlit with ⟨x, hx, rfl⟩
  rw [evalLit_pos a x (hpos x hx), hallf x hx]
  simp

/-! ## Claim C9: the formula is well-formed -/

/-- **C9.** In the fixed 7-piece 3×3×3 configuration every piece group is
non-empty, every cube cell has a non-empty group in the cell index (so
the encoder's zero-variable branch is never taken), and every clause of
the produced formula is non-empty with every literal referencing a
variable in `[1, num_vars]`. -/
theorem C9_formula_wellformed :
    (∀ p, p < 7 → generate_placements.byPiece p ≠ [])
    ∧ (∀ c ∈ coordinates,
        ∃ vs, (c, vs) ∈ generate_placements.byCell ∧ vs ≠ [])
    ∧ (∀ cl ∈ mkClauses generate_placements.byPiece generate_placements.byCell,
        cl ≠ [] ∧ ∀ lit ∈ cl,
          1 ≤ lit.natAbs ∧ lit.natAbs ≤ generate_placements.ctr - 1) := by
  refine ⟨piece_group_nonempty, cell_has_group, ?_⟩
  intro cl hcl
  simp only [mkClauses, List.mem_append, List.mem_flatMap, List.mem_range] at hcl
  rcases hcl with ⟨p, hp, hclp⟩ | ⟨cv, hcv, hclc⟩
  · refine ⟨mem_exactly_one_ne_nil hclp, ?_⟩
    intro lit hlit
    rcases mem_exactly_one_lits hclp lit hlit with ⟨v, hv, hcase⟩
    rcases somaInv.bp_sub p v hv with ⟨cells, hm⟩
    have hb := var_in_range (List.mem_map.mpr ⟨_, hm, rfl⟩)
    have hna : lit.natAbs = v := by rcases hcase with rfl | rfl <;> omega
    rw [hna]
    exact hb
  · refine ⟨mem_exactly_one_ne_nil hclc, ?_⟩
    intro lit hlit
    rcases mem_exactly_one_lits hclc lit hlit with ⟨v, hv, hcase⟩
    rcases somaInv.bc_sub cv hcv v hv with ⟨kv, hkv, hsnd, hcm⟩
    have hb := var_in_range (List.mem_map.mpr ⟨kv, hkv, hsnd⟩)
    have hna : lit.natAbs = v := by rcases hcase with rfl | rfl <;> omega
    rw [hna]
    exact hb

/-- Witness for C9 at piece `0` and cell `(0,0,0)`. -/
theorem C9_witness :
    generate_placements.byPiece 0 ≠ []
    ∧ ∃ vs, (((0 : ℤ), (0 : ℤ), (0 : ℤ)), vs) ∈ generate_placements.byCell
        ∧ vs ≠ [] :=
  ⟨C9_formula_wellformed.1 0 (by decide),
   C9_formula_wellformed.2.1 ((0 : ℤ), (0 : ℤ), (0 : ℤ)) (by decide)⟩

/-! ## Claim C4: exact-cover assignments and the formula -/

/-- **C4.** For any assignment of the variables: if exactly one stored
placement per piece is true and every cube cell is covered by exactly
one true placement, then every clause of the generated formula
evaluates to true; and if some cube cell (with clause group `vs`) is
covered by no true placement or by two distinct true placements, then
some clause of that cell's group evaluates to false. -/
theorem C4_exact_cover_semantics (a : ℕ → Bool) :
    ((∀ p, p < 7 →
        ∃! kv, kv ∈ generate_placements.plc ∧ kv.1.1 = p ∧ a kv.2 = true) →
     (∀ c ∈ coordinates,
        ∃! kv, kv ∈ generate_placements.plc ∧ c ∈ kv.1.2 ∧ a kv.2 = true) →
     ∀ cl ∈ mkClauses generate_placements.byPiece generate_placements.byCell,
       evalClause a cl = true)
    ∧ (∀ c vs, (c, vs) ∈ generate_placements.byCell →
        ((∀ kv ∈ generate_placements.plc, c ∈ kv.1.2 → a kv.2 = false) ∨
         (∃ kv1 ∈ generate_placements.plc, ∃ kv2 ∈ generate_placements.plc,
           kv1 ≠ kv2 ∧ c ∈ kv1.1.2 ∧ c ∈ kv2.1.2 ∧
           a kv1.2 = true ∧ a kv2.2 = true)) →
        ∃ cl ∈ exactly_one vs, evalClause a cl = false) := by
  constructor
  · intro hpp hcov cl hcl
    simp only [mkClauses, List.mem_append, List.mem_flatMap, List.mem_range] at hcl
    rcases hcl with ⟨p, hp, hclp⟩ | ⟨cv, hcv, hclc⟩
    · obtain ⟨kv, ⟨hkvm, hkp, hka⟩, hun⟩ := hpp p hp
      refine exactly_one_true_clauses a _ ?_ (somaInv.bp_nodup p) ?_ ?_ cl hclp
      · intro v hv
        rcases somaInv.bp_sub p v hv with ⟨cells, hm⟩
        exact (var_in_range (List.mem_map.mpr ⟨_, hm, rfl⟩)).1
      · refine ⟨kv.2, ?_, hka⟩
        have hmm := somaInv.bp_mem kv hkvm
        rw [hkp] at hmm
        exact hmm
      · intro v hv w hw hav haw
        rcases somaInv.bp_sub p v hv with ⟨cs, hm⟩
        rcases somaInv.bp_sub p w hw with ⟨cs2, hm2⟩
        have h1 := hun ((p, cs), v) ⟨hm, rfl, hav⟩
        have h2 := hun ((p, cs2), w) ⟨hm2, rfl, haw⟩
        have hv2 := congrArg Prod.snd h1
        have hw2 := congrArg Prod.snd h2
        rw [← hw2] at hv2
        exact hv2
    · have hc : cv.1 ∈ coordinates :=
        (mem_coordinates_iff cv.1).mpr (byCell_key_inCube cv hcv)
      obtain ⟨kv, ⟨hkvm, hkc, hka⟩, hun⟩ := hcov cv.1 hc
      refine exactly_one_true_clauses a _ ?_ (somaInv.bc_vs_nodup cv hcv) ?_ ?_
        cl hclc
      · intro v hv
        rcases somaInv.bc_sub cv hcv v hv with ⟨kv2, hkv2, hsnd, hcm⟩
        exact (var_in_range (List.mem_map.mpr ⟨kv2, hkv2, hsnd⟩)).1
      · rcases somaInv.bc_mem kv hkvm cv.1 hkc with ⟨vs2, hvs2, hin⟩
        have he := byCell_entry_unique hvs2 hcv rfl
        have hveq := congrArg Prod.snd he
        refine ⟨kv.2, ?_, hka⟩
        rw [← hveq]
        exact hin
      · intro v hv w hw hav haw
        rcases somaInv.bc_sub cv hcv v hv with ⟨kv1, hm1, hs1, hc1⟩
        rcases somaInv.bc_sub cv hcv w hw with ⟨kv2, hm2, hs2, hc2⟩
        have h1 := hun kv1 ⟨hm1, hc1, by rw [hs1]; exact hav⟩
        have h2 := hun kv2 ⟨hm2, hc2, by rw [hs2]; exact haw⟩
        rw [← hs1, ← hs2, h1, h2]
  · intro c vs hcv hbad
    have hvpos : ∀ v ∈ vs, 1 ≤ v := by
      intro v hv
      rcases somaInv.bc_sub (c, vs) hcv v hv with ⟨kv, hkv, hsnd, hcm⟩
      exact (var_in_range (List.mem_map.mpr ⟨kv, hkv, hsnd⟩)).1
    have hnil := somaInv.bc_vs_ne_nil (c, vs) hcv
    rcases hbad with hunc | ⟨kv1, hm1, kv2, hm2, hne, hc1, hc2, ha1, ha2⟩
    · have hallf : ∀ v ∈ vs, a v = false := by
        intro v hv
        rcases somaInv.bc_sub (c, vs) hcv v hv with ⟨kv, hkv, hsnd, hcm⟩
        rw [← hsnd]
        exact hunc kv hkv hcm
      rcases vs with _ | ⟨u, rest⟩
      · exact absurd rfl hnil
      · exact ⟨(u :: rest).map (fun (x : ℕ) => (x : ℤ)), List.mem_cons_self _ _,
          big_clause_false a (u :: rest) hvpos hallf⟩
    · have hv1 : kv1.2 ∈ vs := by
        rcases somaInv.bc_mem kv1 hm1 c hc1 with ⟨vs2, hvs2, hin⟩
        have he := byCell_entry_unique hvs2 hcv rfl
        injection he with hea heb
        rw [← heb]
        exact hin
      have hv2 : kv2.2 ∈ vs := by
        rcases somaInv.bc_mem kv2 hm2 c hc2 with ⟨vs2, hvs2, hin⟩
        have he := byCell_entry_unique hvs2 hcv rfl
        injection he with hea heb
        rw [← heb]
        exact hin
      have hvne : kv1.2 ≠ kv2.2 := by
        intro he
        exact hne (map_nodup_entry_unique plc_snd_nodup kv1 hm1 kv2 hm2 he)
      rcases pair_sublist_of_mem_ne hv1 hv2 hvne with hs | hs
      · refine ⟨[-(kv1.2 : ℤ), -(kv2.2 : ℤ)],
          pairs_sub_exactly_one hnil ((mem_pairsFrom _ _).mpr ⟨_, _, hs, rfl⟩), ?_⟩
        simp [evalClause, evalLit_neg_coe, ha1, ha2]
      · refine ⟨[-(kv2.2 : ℤ), -(kv1.2 : ℤ)],
          pairs_sub_exactly_one hnil ((mem_pairsFrom _ _).mpr ⟨_, _, hs, rfl⟩), ?_⟩
        simp [evalClause, evalLit_neg_coe, ha1, ha2]

/-! ### A concrete satisfying assignment for the C4 witness -/

/-- The variable ids of the chosen exact cover, looked up in the final
`placements` dictionary. -/
def solVars : List ℕ := solKeys.filterMap (findVar generate_placements.plc)

/-- The assignment that sets exactly the chosen placements true. -/
def solAssignment : ℕ → Bool := fun n => decide (n ∈ solVars)

theorem solAssignment_iff (n : ℕ) : solAssignment n = true ↔ n ∈ solVars := by
  simp [solAssignment]

theorem solVar_spec (n : ℕ) :
    n ∈ solVars ↔ ∃ k ∈ solKeys, (k, n) ∈ generate_placements.plc := by
  have hv : n ∈ solVars ↔
      n ∈ solKeys.filterMap (findVar generate_placements.plc) := Iff.rfl
  rw [hv, List.mem_filterMap]
  constructor
  · rintro ⟨k, hk, hf⟩
    exact ⟨k, hk, findVar_some_mem hf⟩
  · rintro ⟨k, hk, hm⟩
    refine ⟨k, hk, ?_⟩
    rcases findVar_isSome_of_mem (List.mem_map.mpr ⟨(k, n), hm, rfl⟩) with ⟨w, hw⟩
    have he := map_nodup_entry_unique somaInv.keys_nodup (k, w)
      (findVar_some_mem hw) (k, n) hm rfl
    injection he with hea heb
    rw [← heb]
    exact hw

theorem solAssignment_per_piece : ∀ p, p < 7 →
    ∃! kv, kv ∈ generate_placements.plc ∧ kv.1.1 = p
      ∧ solAssignment kv.2 = true := by
  intro p hp
  rcases solKeys_pieces p (List.mem_range.mpr hp) with ⟨k, hk, hkp⟩
  rcases List.mem_map.mp (solKeys_present k hk) with ⟨kv, hkvm, hfst⟩
  have hkm : (k, kv.2) ∈ generate_placements.plc := by
    rw [← hfst]
    exact hkvm
  refine ⟨kv, ⟨hkvm, ?_, ?_⟩, ?_⟩
  · rw [hfst]
    exact hkp
  · rw [solAssignment_iff]
    exact (solVar_spec kv.2).mpr ⟨k, hk, hkm⟩
  · rintro ⟨k1, v1⟩ ⟨hm1, hp1, ha1⟩
    rcases (solVar_spec v1).mp ((solAssignment_iff v1).mp ha1) with ⟨k2, hk2, hm2⟩
    have he := map_nodup_entry_unique plc_snd_nodup (k1, v1) hm1 (k2, v1) hm2 rfl
    injection he with hea heb
    have hk2p : k2.1 = p := by
      rw [← hea]
      exact hp1
    have hkk : k2 = k := solKeys_fst_inj k2 hk2 k hk (by rw [hk2p, hkp])
    exact map_nodup_entry_unique somaInv.keys_nodup (k1, v1) hm1 kv hkvm
      (by show k1 = kv.1; rw [hea, hkk, ← hfst])

theorem solAssignment_per_cell : ∀ c ∈ coordinates,
    ∃! kv, kv ∈ generate_placements.plc ∧ c ∈ kv.1.2
      ∧ solAssignment kv.2 = true := by
  intro c hc
  rcases solKeys_cover c hc with ⟨k, hk, hck⟩
  rcases List.mem_map.mp (solKeys_present k hk) with ⟨kv, hkvm, hfst⟩
  have hkm : (k, kv.2) ∈ generate_placements.plc := by
    rw [← hfst]
    exact hkvm
  refine ⟨kv, ⟨hkvm, ?_, ?_⟩, ?_⟩
  · rw [hfst]
    exact hck
  · rw [solAssignment_iff]
    exact (solVar_spec kv.2).mpr ⟨k, hk, hkm⟩
  · rintro ⟨k1, v1⟩ ⟨hm1, hc1, ha1⟩
    rcases (solVar_spec v1).mp ((solAssignment_iff v1).mp ha1) with ⟨k2, hk2, hm2⟩
    have he := map_nodup_entry_unique plc_snd_nodup (k1, v1) hm1 (k2, v1) hm2 rfl
    injection he with hea heb
    have hck2 : c ∈ k2.2 := by
      rw [← hea]
      exact hc1
    have hkk : k2 = k := solKeys_disjoint k2 hk2 k hk c hck2 hck
    exact map_nodup_entry_unique somaInv.keys_nodup (k1, v1) hm1 kv hkvm
      (by show k1 = kv.1; rw [hea, hkk, ← hfst])

/-- Witness for C4: the concrete exact-cover assignment satisfies every
clause of the formula, and the all-false assignment falsifies a clause
of cell `(0,0,0)`'s group. -/
theorem C4_witness :
    (∀ cl ∈ mkClauses generate_placements.byPiece generate_placements.byCell,
        evalClause solAssignment cl = true)
    ∧ ∃ vs, (((0 : ℤ), (0 : ℤ), (0 : ℤ)), vs) ∈ generate_placements.byCell
        ∧ ∃ cl ∈ exactly_one vs, evalClause (fun _ => false) cl = false := by
  constructor
  · exact (C4_exact_cover_semantics solAssignment).1 solAssignment_per_piece
      solAssignment_per_cell
  · rcases cell_has_group ((0 : ℤ), (0 : ℤ), (0 : ℤ)) (by decide) with
      ⟨vs, hvs, hvne⟩
    exact ⟨vs, hvs, (C4_exact_cover_semantics (fun _ => false)).2
      ((0 : ℤ), (0 : ℤ), (0 : ℤ)) vs hvs (Or.inl fun kv h1 h2 => rfl)⟩

end Soma
